import Mathlib

/-!
Verification development for the block-storage engine of the hub repository
(`src/libs/server/BlocksDB.cpp`).

The header tree (`CBlockIndex` records linked by `pprev`) is embedded as an
explicit store of records addressed by numeric ids, so that the pointer
identity used by the C++ code (`parent == tip`, `tip == d->headersChain.Tip()`)
becomes id equality.  All machine integers are modelled as `Nat`.
-/

namespace BlocksDB

/-- Modelled from the spec: status flag `FAILED_VALID` (bit value as in the
upstream header flags; the flag constants live in `chain.h`, which is not part
of the sources, the spec only names the flags). -/
def BLOCK_FAILED_VALID : Nat := 32

/-- Modelled from the spec: status flag `FAILED_CHILD`. -/
def BLOCK_FAILED_CHILD : Nat := 64

/-- Modelled from the spec: `FAILED_MASK = FAILED_VALID | FAILED_CHILD`. -/
def BLOCK_FAILED_MASK : Nat := 96

/-- `nStatus & BLOCK_FAILED_MASK != 0`, written arithmetically: bits 5 and 6 of
`s` are the two failure flags, so the mask is non-zero iff `s % 128 ≥ 32`. -/
def hasFailedMask (s : Nat) : Bool := decide (32 ≤ s % 128)

/-- `nStatus & BLOCK_FAILED_CHILD != 0`: bit 6 of `s`. -/
def hasFailedChild (s : Nat) : Bool := decide ((s % 128) / 64 = 1)

/-- `nStatus &= ~BLOCK_FAILED_MASK`: clear bits 5 and 6 of `s`. -/
def clearFailedMask (s : Nat) : Nat := s / 128 * 128 + s % 32

theorem hasFailedMask_clearFailedMask (s : Nat) :
    hasFailedMask (clearFailedMask s) = false := by
  simp only [hasFailedMask, clearFailedMask, decide_eq_false_iff_not, not_le]
  omega

theorem clearFailedMask_of_not_hasFailedMask {s : Nat}
    (h : hasFailedMask s = false) : clearFailedMask s = s := by
  simp only [hasFailedMask, decide_eq_false_iff_not, not_le] at h
  simp only [clearFailedMask]
  omega

theorem hasFailedChild_hasFailedMask {s : Nat} (h : hasFailedChild s = true) :
    hasFailedMask s = true := by
  simp only [hasFailedChild, decide_eq_true_eq] at h
  simp only [hasFailedMask, decide_eq_true_eq]
  omega

/-- One header record (`CBlockIndex`).  `prev` is the id of the parent record
(`pprev`); `none` for the genesis record. -/
structure BlockRec where
  prev : Option Nat
  nHeight : Nat
  nStatus : Nat
  nChainWork : Nat
deriving DecidableEq, Repr

/-- The arena owning all records; a record's id is its index in the list.
Pointer equality of the C++ code is id equality here. -/
abbrev Store := List BlockRec

namespace Store

/-- Dereference an id. -/
def recAt (st : Store) (i : Nat) : Option BlockRec := st.get? i

/-- `i->nHeight` (0 for a dangling id; the claims only dereference live ids). -/
def heightOf (st : Store) (i : Nat) : Nat := ((st.recAt i).map BlockRec.nHeight).getD 0

/-- `i->nChainWork`. -/
def workOf (st : Store) (i : Nat) : Nat := ((st.recAt i).map BlockRec.nChainWork).getD 0

/-- `i->nStatus`. -/
def statusOf (st : Store) (i : Nat) : Nat := ((st.recAt i).map BlockRec.nStatus).getD 0

/-- `i->pprev`. -/
def prevOf (st : Store) (i : Nat) : Option Nat := (st.recAt i).bind BlockRec.prev

/-- `(i->nStatus & BLOCK_FAILED_MASK) != 0`. -/
def failedOf (st : Store) (i : Nat) : Bool := hasFailedMask (statusOf st i)

end Store

open Store

/-- `CBlockIndex::GetAncestor(height)`, fuel-indexed: walk `pprev` until the
requested height is reached; `none` when the height is above the record's own
height (the skip pointers of the original are an optimisation only).
`GetAncestor` lives in `chain.cpp`, which is not among the sources.
Modelled from the spec: "`ancestor(r, h).height == h` for all `0 ≤ h ≤ r.height`"
(P2) together with I5's skiplist walk. -/
def gaFuel (st : Store) : Nat → Nat → Nat → Option Nat
  | 0, i, h => if h = heightOf st i then some i else none
  | fuel + 1, i, h =>
    if h > heightOf st i then none
    else if h = heightOf st i then some i
    else (prevOf st i).elim none (fun p => gaFuel st fuel p h)

/-- `i->GetAncestor(h)`.  The fuel `heightOf st i` covers every step of the
walk on a well-formed store. -/
def getAncestor (st : Store) (i h : Nat) : Option Nat := gaFuel st (heightOf st i) i h

/-- `j` is an ancestor of (or equal to) `i`: `i->GetAncestor(j->nHeight) == j`. -/
def anc (st : Store) (j i : Nat) : Prop := getAncestor st i (heightOf st j) = some j

instance (st : Store) (j i : Nat) : Decidable (anc st j i) := by
  unfold anc; infer_instance

/-- Well-formedness of one record, bundling the spec's data-model invariants:
I1 (parent present, `height = prev.height + 1`), I2 (chain work strictly
increases along the parent link), I3 (a failed parent forces `FAILED_CHILD`
on the child), I4 (the genesis record is never failed). -/
def wfAt (st : Store) (r : BlockRec) : Bool :=
  match r.prev with
  | none => r.nHeight == 0 && !hasFailedMask r.nStatus
  | some p =>
      decide (p < st.length) &&
      (match st.recAt p with
       | none => false
       | some pr =>
          (r.nHeight == pr.nHeight + 1) && decide (pr.nChainWork < r.nChainWork) &&
            (!hasFailedMask pr.nStatus || hasFailedChild r.nStatus))

/-- The whole store is well-formed. -/
def WF (st : Store) : Prop := ∀ r ∈ st, wfAt st r = true

instance (st : Store) : Decidable (WF st) := List.decidableBAll _ st

theorem WF.at {st : Store} (hwf : WF st) {i : Nat} {r : BlockRec}
    (h : st.recAt i = some r) : wfAt st r = true :=
  hwf r (List.get?_mem h)

theorem recAt_isSome_of_lt {st : Store} {i : Nat} (h : i < st.length) :
    ∃ r, st.recAt i = some r := by
  rcases hr : st.recAt i with _ | r
  · rw [Store.recAt, List.get?_eq_none] at hr; omega
  · exact ⟨r, rfl⟩

theorem lt_of_recAt_some {st : Store} {i : Nat} {r : BlockRec}
    (h : st.recAt i = some r) : i < st.length := by
  by_contra hn
  rw [Store.recAt, List.get?_eq_none.2 (by omega)] at h
  exact Option.noConfusion h

/-- On a well-formed store, the parent of a live record is live, one level
down, and of strictly smaller work. -/
theorem prev_facts {st : Store} (hwf : WF st) {i p : Nat}
    (hp : prevOf st i = some p) :
    p < st.length ∧ heightOf st p + 1 = heightOf st i ∧ workOf st p < workOf st i ∧
      (failedOf st p = true → hasFailedChild (statusOf st i) = true) := by
  rcases hr : st.recAt i with _ | r
  · rw [prevOf, hr] at hp; exact Option.noConfusion hp
  rw [prevOf, hr, Option.some_bind] at hp
  have hw := hwf.at hr
  rw [wfAt] at hw
  rw [hp] at hw
  dsimp only at hw
  rcases hpr : st.recAt p with _ | pr
  · rw [hpr] at hw; simp at hw
  rw [hpr] at hw
  dsimp only at hw
  simp only [Bool.and_eq_true, decide_eq_true_eq, beq_iff_eq, Bool.or_eq_true,
    Bool.not_eq_true'] at hw
  refine ⟨hw.1, ?_, ?_, ?_⟩
  · simp [heightOf, hr, hpr, hw.2.1.1]
  · simp only [workOf, hr, hpr, Option.map_some', Option.getD_some]
    exact hw.2.1.2
  · intro hf
    simp only [failedOf, statusOf, hpr, Option.map_some', Option.getD_some] at hf
    simp only [statusOf, hr, Option.map_some', Option.getD_some]
    rcases hw.2.2 with h | h
    · rw [hf] at h; exact Bool.noConfusion h
    · exact h

theorem height_zero_of_prev_none {st : Store} (hwf : WF st) {i : Nat}
    (hi : i < st.length) (hp : prevOf st i = none) :
    heightOf st i = 0 ∧ failedOf st i = false := by
  obtain ⟨r, hr⟩ := recAt_isSome_of_lt hi
  have hw := hwf.at hr
  rw [prevOf, hr, Option.some_bind] at hp
  rw [wfAt] at hw
  rw [hp] at hw
  dsimp only at hw
  simp only [Bool.and_eq_true, beq_iff_eq, Bool.not_eq_true'] at hw
  constructor
  · simp [heightOf, hr, hw.1]
  · simp [failedOf, statusOf, hr, hw.2]

/-- A live record of positive height has a live parent. -/
theorem prev_some_of_height_pos {st : Store} (hwf : WF st) {i : Nat}
    (hi : i < st.length) (hh : 0 < heightOf st i) : ∃ p, prevOf st i = some p := by
  rcases hp : prevOf st i with _ | p
  · have := (height_zero_of_prev_none hwf hi hp).1; omega
  · exact ⟨p, rfl⟩

theorem getAncestor_self {st : Store} {i : Nat} : getAncestor st i (heightOf st i) = some i := by
  rw [getAncestor]
  rcases hh : heightOf st i with _ | n <;> rw [gaFuel] <;> simp [hh]

theorem getAncestor_of_gt {st : Store} {i h : Nat} (hh : heightOf st i < h) :
    getAncestor st i h = none := by
  rw [getAncestor]
  rcases hhi : heightOf st i with _ | n <;> rw [gaFuel] <;> rw [hhi] at hh <;>
    simp [hhi] <;> omega

theorem gaFuel_step (st : Store) (fuel i h p : Nat) (hp : prevOf st i = some p)
    (hh : h < heightOf st i) : gaFuel st (fuel + 1) i h = gaFuel st fuel p h := by
  rw [gaFuel, hp]
  simp only [if_neg (by omega : ¬ h > heightOf st i), if_neg (by omega : ¬ h = heightOf st i),
    Option.elim_some]

/-- The one-step unfolding of `GetAncestor` on a well-formed store. -/
theorem getAncestor_step {st : Store} (hwf : WF st) {i p : Nat} {h : Nat}
    (hp : prevOf st i = some p) (hh : h < heightOf st i) :
    getAncestor st i h = getAncestor st p h := by
  obtain ⟨hplt, hph, -⟩ := prev_facts hwf hp
  rw [getAncestor, show heightOf st i = heightOf st p + 1 by omega,
    gaFuel_step st (heightOf st p) i h p hp hh]
  rfl

/-- Strong induction along the parent chain. -/
theorem chain_induction {st : Store} (hwf : WF st) (P : Nat → Prop)
    (step : ∀ i, i < st.length → (∀ p, prevOf st i = some p → P p) → P i) :
    ∀ i, i < st.length → P i := by
  intro i hi
  generalize hh : heightOf st i = n
  induction n using Nat.strong_induction_on generalizing i with
  | _ n ih =>
      subst hh
      refine step i hi (fun p hp => ?_)
      obtain ⟨hplt, hph, -⟩ := prev_facts hwf hp
      exact ih (heightOf st p) (by omega) p hplt rfl

/-- A successful `GetAncestor` lands on a live record of the requested height. -/
theorem getAncestor_mem_height {st : Store} (hwf : WF st) :
    ∀ i, i < st.length → ∀ h j, getAncestor st i h = some j →
      j < st.length ∧ heightOf st j = h := by
  refine chain_induction hwf _ ?_
  intro i hi ih h j hj
  by_cases hgt : heightOf st i < h
  · rw [getAncestor_of_gt hgt] at hj; exact Option.noConfusion hj
  · by_cases heq : h = heightOf st i
    · subst heq; rw [getAncestor_self] at hj
      cases hj; exact ⟨hi, rfl⟩
    · have hh : h < heightOf st i := by omega
      obtain ⟨p, hp⟩ := prev_some_of_height_pos hwf hi (by omega)
      rw [getAncestor_step hwf hp hh] at hj
      exact ih p hp h j hj

/-- Transitivity: an ancestor of an ancestor is looked up through either. -/
theorem getAncestor_trans {st : Store} (hwf : WF st) :
    ∀ i, i < st.length → ∀ h j h', getAncestor st i h = some j → h' ≤ h →
      getAncestor st i h' = getAncestor st j h' := by
  refine chain_induction hwf _ ?_
  intro i hi ih h j h' hj hle
  by_cases hgt : heightOf st i < h
  · rw [getAncestor_of_gt hgt] at hj; exact Option.noConfusion hj
  · by_cases heq : h = heightOf st i
    · subst heq; rw [getAncestor_self] at hj; cases hj; rfl
    · have hh : h < heightOf st i := by omega
      obtain ⟨p, hp⟩ := prev_some_of_height_pos hwf hi (by omega)
      rw [getAncestor_step hwf hp hh] at hj
      rw [getAncestor_step hwf hp (by omega), ih p hp h j h' hj hle]

/-- Work strictly decreases towards proper ancestors (spec invariant I2). -/
theorem getAncestor_work_lt {st : Store} (hwf : WF st) :
    ∀ i, i < st.length → ∀ h j, getAncestor st i h = some j → j ≠ i →
      workOf st j < workOf st i := by
  refine chain_induction hwf _ ?_
  intro i hi ih h j hj hne
  by_cases hgt : heightOf st i < h
  · rw [getAncestor_of_gt hgt] at hj; exact Option.noConfusion hj
  · by_cases heq : h = heightOf st i
    · subst heq; rw [getAncestor_self] at hj; cases hj; exact absurd rfl hne
    · have hh : h < heightOf st i := by omega
      obtain ⟨p, hp⟩ := prev_some_of_height_pos hwf hi (by omega)
      rw [getAncestor_step hwf hp hh] at hj
      obtain ⟨hplt, hph, hwk, -⟩ := prev_facts hwf hp
      by_cases hjp : j = p
      · subst hjp; omega
      · exact lt_trans (ih p hp h j hj hjp) hwk

theorem getAncestor_work_le {st : Store} (hwf : WF st) {i h j : Nat}
    (hi : i < st.length) (hj : getAncestor st i h = some j) :
    workOf st j ≤ workOf st i := by
  by_cases hne : j = i
  · subst hne; rfl
  · exact le_of_lt (getAncestor_work_lt hwf i hi h j hj hne)

/-- Spec invariant I3 lifted to chains: a failed ancestor forces the failure
mask on every descendant. -/
theorem failed_of_failed_ancestor {st : Store} (hwf : WF st) :
    ∀ i, i < st.length → ∀ h j, getAncestor st i h = some j →
      failedOf st j = true → failedOf st i = true := by
  refine chain_induction hwf _ ?_
  intro i hi ih h j hj hfail
  by_cases hgt : heightOf st i < h
  · rw [getAncestor_of_gt hgt] at hj; exact Option.noConfusion hj
  · by_cases heq : h = heightOf st i
    · subst heq; rw [getAncestor_self] at hj; cases hj; exact hfail
    · have hh : h < heightOf st i := by omega
      obtain ⟨p, hp⟩ := prev_some_of_height_pos hwf hi (by omega)
      rw [getAncestor_step hwf hp hh] at hj
      obtain ⟨hplt, -, -, hchild⟩ := prev_facts hwf hp
      have hpf : failedOf st p = true := ih p hp h j hj hfail
      exact hasFailedChild_hasFailedMask (hchild hpf)

/-- Two ancestors of the same record are comparable: the lower one is an
ancestor of the higher one. -/
theorem anc_comparable {st : Store} (hwf : WF st) {i h₁ h₂ j k : Nat}
    (hi : i < st.length)
    (hj : getAncestor st i h₁ = some j) (hk : getAncestor st i h₂ = some k)
    (hle : h₁ ≤ h₂) : getAncestor st k h₁ = some j := by
  have := getAncestor_trans hwf i hi h₂ k h₁ hk hle
  rw [← this, hj]


/-- The ChainSet state of `Blocks::DBPrivate`: the `headerChainTips` list and
the tip of the `headersChain` CChain (`none` models the empty chain, i.e.
`Height() == -1`; `SetTip` is observationally replacing this tip, since the
chain's vector is the tip's ancestor path). -/
structure ChainState where
  tips : List Nat
  mainTip : Option Nat
deriving DecidableEq, Repr

/-- `CChain::Contains(i)`: `vChain[i->nHeight] == i`, where the vector is the
ancestor path of the tip, so membership is `tip->GetAncestor(i->nHeight) == i`. -/
def chainContains (st : Store) (main : Option Nat) (i : Nat) : Bool :=
  match main with
  | none => false
  | some m => getAncestor st m (heightOf st i) == some i

/-- The `while (validPrev->nStatus & BLOCK_FAILED_MASK) validPrev = validPrev->pprev`
walk of `appendHeader`, fuel-indexed; `none` models the null dereference the
C++ would perform if every ancestor including genesis were failed. -/
def walkVPFuel (st : Store) : Nat → Nat → Option Nat
  | 0, _ => none
  | fuel + 1, i =>
      match st.recAt i with
      | none => none
      | some r =>
          if hasFailedMask r.nStatus then
            match r.prev with
            | none => none
            | some p => walkVPFuel st fuel p
          else some i

def walkValidPrev (st : Store) (i : Nat) : Option Nat := walkVPFuel st (heightOf st i + 1) i

/-- The first loop of `appendHeader`: find the first tip `t` with
`block->GetAncestor(t->nHeight) == t`, returning the tips before it, `t`
itself, and the tips after it. -/
def extFind (st : Store) (b : Nat) : List Nat → Option (List Nat × Nat × List Nat)
  | [] => none
  | t :: rest =>
      if anc st t b then some ([], t, rest)
      else match extFind st b rest with
           | some (pre, u, post) => some (t :: pre, u, post)
           | none => none

/-- Result of the second loop of `appendHeader`. -/
inductive ScanResult where
  | earlyFalse
  | done (kept : List Nat) (vp : Nat) (main : Option Nat)
      (modified alreadyContains modifying : Bool)
deriving DecidableEq, Repr

/-- The second loop of `appendHeader`: walk the tips, erasing chains that
contain the (invalid) `block`, moving the main chain to `validPrev` when a
main-chain tip is erased, and promoting `validPrev` to any better tip that
already contains it.  `acc` accumulates the kept tips in order. -/
def scanTips (st : Store) (b : Nat) (valid : Bool) :
    List Nat → List Nat → Nat → Option Nat → Bool → Bool → Bool → ScanResult
  | acc, [], vp, main, modified, already, modifying =>
      .done acc vp main modified already modifying
  | acc, t :: rest, vp, main, modified, already, modifying =>
      if anc st b t then
        if valid then .earlyFalse
        else
          scanTips st b valid acc rest vp
            (if chainContains st main t then some vp else main)
            true already (modifying || chainContains st main t)
      else
        if anc st vp t then
          scanTips st b valid (acc ++ [t]) rest
            (if workOf st vp < workOf st t then t else vp) main modified true modifying
        else
          scanTips st b valid (acc ++ [t]) rest vp main modified already modifying

/-- The tail of `appendHeader`: `assert(d->headersChain.Tip())` followed by
the strict-work comparison that may move the main chain to `validPrev`. -/
def finalCheck (st : Store) (s : ChainState) (vp : Nat) (modifying : Bool) :
    Option (ChainState × Bool) :=
  match s.mainTip with
  | none => none
  | some m =>
      if workOf st m < workOf st vp then some (⟨s.tips, some vp⟩, true)
      else some (s, modifying)

/-- `Blocks::DB::appendHeader(block)`.  Returns `none` where the C++ would
fail an assertion or dereference null (invalid genesis, empty chain at the
final assert, a fully-failed ancestry). -/
def appendHeader (st : Store) (s : ChainState) (b : Nat) : Option (ChainState × Bool) :=
  if !failedOf st b && chainContains st s.mainTip b then some (s, false)
  else
    match (if !failedOf st b then some b else prevOf st b) with
    | none => none
    | some start =>
      match walkValidPrev st start with
      | none => none
      | some vp =>
        match extFind st b s.tips with
        | some (pre, t, post) =>
            if s.mainTip = some t then some (⟨pre ++ post ++ [vp], some vp⟩, true)
            else finalCheck st ⟨pre ++ post ++ [vp], s.mainTip⟩ vp false
        | none =>
            match scanTips st b (!failedOf st b) [] s.tips vp s.mainTip false false false with
            | .earlyFalse => some (s, false)
            | .done kept vp' main' modified already modifying =>
                if !failedOf st b then
                  match main' with
                  | none =>
                      some (⟨(if modified && !already then kept ++ [vp'] else kept) ++ [b],
                        some b⟩, true)
                  | some _ =>
                      finalCheck st
                        ⟨(if modified && !already then kept ++ [vp'] else kept) ++ [b], main'⟩
                        vp' modifying
                else
                  finalCheck st
                    ⟨(if modified && !already then kept ++ [vp'] else kept), main'⟩ vp' modifying

/-- Fold `appendHeader` over a list of records, propagating assertion
failures. -/
def runAppend (st : Store) : ChainState → List Nat → Option ChainState
  | s, [] => some s
  | s, b :: bs =>
      match appendHeader st s b with
      | none => none
      | some (s', _) => runAppend st s' bs

/-- The state before any `appendHeader` call. -/
def emptyChain : ChainState := ⟨[], none⟩

section ModelSanity

/-- Spec scenarios 1-3: genesis, linear extension, reorg with an equal-work
sibling and a heavier grandchild.  Records: 0 = G(w1), 1 = A(w2, child of G),
2 = B(w2, child of G), 3 = C(w3, child of B). -/
def scenarioStore : Store :=
  [⟨none, 0, 0, 1⟩, ⟨some 0, 1, 0, 2⟩, ⟨some 0, 1, 0, 2⟩, ⟨some 2, 2, 0, 3⟩]

example : runAppend scenarioStore emptyChain [0] = some ⟨[0], some 0⟩ := by decide
example : runAppend scenarioStore emptyChain [0, 1] = some ⟨[1], some 1⟩ := by decide
example : appendHeader scenarioStore ⟨[1], some 1⟩ 2 = some (⟨[1, 2], some 1⟩, false) := by decide
example : appendHeader scenarioStore ⟨[1, 2], some 1⟩ 3 = some (⟨[1, 3], some 3⟩, true) := by
  decide

end ModelSanity


section CexSanity

def cex1Store : Store :=
  [⟨none, 0, 0, 1⟩, ⟨some 0, 1, 0, 2⟩, ⟨some 0, 1, 0, 10⟩, ⟨some 2, 2, 32, 11⟩]

example : WF cex1Store := by decide
example : runAppend cex1Store emptyChain [0, 1, 3] = some ⟨[1], some 2⟩ := by decide

def cex2Store : Store :=
  [⟨none, 0, 0, 1⟩, ⟨some 0, 1, 0, 2⟩, ⟨some 1, 2, 0, 3⟩, ⟨some 2, 3, 0, 4⟩,
   ⟨some 0, 1, 0, 100⟩]

example : WF cex2Store := by decide
example : appendHeader cex2Store ⟨[1, 2, 4], some 4⟩ 3 = some (⟨[2, 4, 3], some 4⟩, false) := by
  decide
example : appendHeader cex2Store ⟨[2, 4, 3], some 4⟩ 3 = some (⟨[4, 3, 3], some 4⟩, false) := by
  decide

end CexSanity

/-! ### Ancestor-relation lemmas -/

theorem anc_le_height {st : Store} {j i : Nat} (h : anc st j i) :
    heightOf st j ≤ heightOf st i := by
  by_contra hn
  rw [anc, getAncestor_of_gt (by omega)] at h
  exact Option.noConfusion h

theorem anc_refl (st : Store) (i : Nat) : anc st i i := getAncestor_self

theorem anc_lt_length {st : Store} (hwf : WF st) {j i : Nat} (hi : i < st.length)
    (h : anc st j i) : j < st.length :=
  (getAncestor_mem_height hwf i hi _ j h).1

theorem anc_trans {st : Store} (hwf : WF st) {i j k : Nat} (hi : i < st.length)
    (hjk : anc st j k) (hki : anc st k i) : anc st j i := by
  rw [anc, getAncestor_trans hwf i hi (heightOf st k) k (heightOf st j) hki (anc_le_height hjk)]
  exact hjk

theorem anc_eq_of_height_eq {st : Store} {i j : Nat} (h : anc st j i)
    (hh : heightOf st j = heightOf st i) : j = i := by
  rw [anc, hh, getAncestor_self] at h
  exact (Option.some_injective _ h).symm

theorem anc_antisymm {st : Store} {i j : Nat} (hj : anc st j i) (hi : anc st i j) : i = j := by
  have h1 := anc_le_height hj
  have h2 := anc_le_height hi
  exact (anc_eq_of_height_eq hj (le_antisymm h1 h2)).symm

theorem anc_work_le {st : Store} (hwf : WF st) {i j : Nat} (hi : i < st.length)
    (h : anc st j i) : workOf st j ≤ workOf st i :=
  getAncestor_work_le hwf hi h

theorem anc_work_lt {st : Store} (hwf : WF st) {i j : Nat} (hi : i < st.length)
    (h : anc st j i) (hne : j ≠ i) : workOf st j < workOf st i :=
  getAncestor_work_lt hwf i hi _ j h hne

/-- Two ancestors of one record are comparable. -/
theorem anc_of_both {st : Store} (hwf : WF st) {i j k : Nat} (hi : i < st.length)
    (hj : anc st j i) (hk : anc st k i) (hle : heightOf st j ≤ heightOf st k) :
    anc st j k :=
  anc_comparable hwf hi hj hk hle

theorem anc_failed {st : Store} (hwf : WF st) {i j : Nat} (hi : i < st.length)
    (h : anc st j i) (hf : failedOf st j = true) : failedOf st i = true :=
  failed_of_failed_ancestor hwf i hi _ j h hf

/-- A proper ancestor is an ancestor of the parent. -/
theorem anc_strict_step {st : Store} (hwf : WF st) {i j : Nat} (hi : i < st.length)
    (h : anc st j i) (hne : j ≠ i) : ∃ p, prevOf st i = some p ∧ anc st j p := by
  have hlt : heightOf st j < heightOf st i := by
    rcases lt_or_eq_of_le (anc_le_height h) with hlt | heq
    · exact hlt
    · exact absurd (anc_eq_of_height_eq h heq) hne
  obtain ⟨p, hp⟩ := prev_some_of_height_pos hwf hi (by omega)
  refine ⟨p, hp, ?_⟩
  rw [anc, ← getAncestor_step hwf hp hlt]
  exact h

/-! ### `validPrev` walk lemmas -/

theorem walkValidPrev_nonfailed {st : Store} {i : Nat} (hi : i < st.length)
    (hf : failedOf st i = false) : walkValidPrev st i = some i := by
  obtain ⟨r, hr⟩ := recAt_isSome_of_lt hi
  have hfm : hasFailedMask r.nStatus = false := by
    simpa [failedOf, statusOf, hr] using hf
  rw [walkValidPrev, walkVPFuel, hr]
  dsimp only
  simp [hfm]

theorem walkValidPrev_step {st : Store} (hwf : WF st) {i p : Nat}
    (hf : failedOf st i = true) (hp : prevOf st i = some p) :
    walkValidPrev st i = walkValidPrev st p := by
  obtain ⟨hplt, hph, -⟩ := prev_facts hwf hp
  rcases hr : st.recAt i with _ | r
  · rw [prevOf, hr] at hp; exact Option.noConfusion hp
  have hfm : hasFailedMask r.nStatus = true := by
    simpa [failedOf, statusOf, hr] using hf
  have hp' : r.prev = some p := by rw [prevOf, hr, Option.some_bind] at hp; exact hp
  rw [walkValidPrev, walkVPFuel, hr]
  dsimp only
  rw [hfm, hp']
  dsimp only
  rw [show heightOf st i = heightOf st p + 1 by omega]
  rfl

/-- The `validPrev` walk succeeds on a well-formed store and yields the highest
non-failed ancestor. -/
theorem walkValidPrev_spec {st : Store} (hwf : WF st) :
    ∀ i, i < st.length → ∃ vp, walkValidPrev st i = some vp ∧ vp < st.length ∧
      failedOf st vp = false ∧ anc st vp i ∧
      ∀ j, anc st j i → failedOf st j = false → heightOf st j ≤ heightOf st vp := by
  refine chain_induction hwf _ ?_
  intro i hi ih
  by_cases hf : failedOf st i = true
  · rcases hp : prevOf st i with _ | p
    · have := height_zero_of_prev_none hwf hi hp
      rw [this.2] at hf; exact Bool.noConfusion hf
    obtain ⟨hplt, hph, -⟩ := prev_facts hwf hp
    obtain ⟨vp, hvp, hvplt, hvpf, hvpanc, hvpmax⟩ := ih p hp
    refine ⟨vp, ?_, hvplt, hvpf, ?_, ?_⟩
    · rw [walkValidPrev_step hwf hf hp]; exact hvp
    · have hhle : heightOf st vp ≤ heightOf st p := anc_le_height hvpanc
      rw [anc, getAncestor_step hwf hp (by omega)]
      exact hvpanc
    · intro j hj hjf
      have hne : j ≠ i := by
        rintro rfl; rw [hf] at hjf; exact Bool.noConfusion hjf
      obtain ⟨p', hp', hjp⟩ := anc_strict_step hwf hi hj hne
      rw [hp] at hp'
      cases hp'
      exact hvpmax j hjp hjf
  · have hf' : failedOf st i = false := by simpa using hf
    exact ⟨i, walkValidPrev_nonfailed hi hf', hi, hf', anc_refl st i,
      fun j hj _ => anc_le_height hj⟩

/-! ### `extFind` lemmas -/

theorem extFind_some {st : Store} {b : Nat} :
    ∀ {tips pre t post}, extFind st b tips = some (pre, t, post) →
      tips = pre ++ t :: post ∧ anc st t b ∧ ∀ u ∈ pre, ¬ anc st u b := by
  intro tips
  induction tips with
  | nil => intro pre t post h; rw [extFind] at h; exact Option.noConfusion h
  | cons x rest ih =>
      intro pre t post h
      rw [extFind] at h
      by_cases hx : anc st x b
      · rw [if_pos hx] at h
        injection h with h
        injection h with h1 h
        injection h with h2 h3
        subst h1; subst h2; subst h3
        exact ⟨rfl, hx, by simp⟩
      · rw [if_neg hx] at h
        rcases hr : extFind st b rest with _ | ⟨pre', u, post'⟩
        · rw [hr] at h; exact Option.noConfusion h
        · rw [hr] at h
          injection h with h
          injection h with h1 h
          injection h with h2 h3
          subst h1; subst h2; subst h3
          obtain ⟨he, ha, hpre⟩ := ih hr
          refine ⟨by rw [he]; rfl, ha, ?_⟩
          intro u hu
          rcases List.mem_cons.1 hu with rfl | hu'
          · exact hx
          · exact hpre u hu'

theorem extFind_none {st : Store} {b : Nat} :
    ∀ {tips}, extFind st b tips = none → ∀ u ∈ tips, ¬ anc st u b := by
  intro tips
  induction tips with
  | nil => intro _ u hu; exact absurd hu (List.not_mem_nil u)
  | cons x rest ih =>
      intro h u hu
      rw [extFind] at h
      by_cases hx : anc st x b
      · rw [if_pos hx] at h; exact Option.noConfusion h
      · rw [if_neg hx] at h
        rcases hr : extFind st b rest with _ | y
        · rcases List.mem_cons.1 hu with rfl | hu'
          · exact hx
          · exact ih hr u hu'
        · rw [hr] at h
          rcases y with ⟨pre', u', post'⟩
          exact Option.noConfusion h

/-! ### `scanTips` lemmas.

On states whose tips are live and non-failed, a well-formed store rules the
erase branch out (a tip that contains a failed `block` would itself be failed
by I3), so the second loop of `appendHeader` only ever promotes `validPrev`.
`promoteVP` is that promotion fold in isolation. -/

def promoteVP (st : Store) : Nat → List Nat → Nat
  | vp, [] => vp
  | vp, t :: rest =>
      if anc st vp t ∧ workOf st vp < workOf st t then promoteVP st t rest
      else promoteVP st vp rest

theorem promoteVP_work_le {st : Store} :
    ∀ {l vp}, workOf st vp ≤ workOf st (promoteVP st vp l) := by
  intro l
  induction l with
  | nil => intro vp; rw [promoteVP]
  | cons t rest ih =>
      intro vp
      rw [promoteVP]
      by_cases hc : anc st vp t ∧ workOf st vp < workOf st t
      · rw [if_pos hc]
        exact le_trans (le_of_lt hc.2) ih
      · rw [if_neg hc]; exact ih

theorem promoteVP_mem {st : Store} :
    ∀ {l vp}, promoteVP st vp l = vp ∨ promoteVP st vp l ∈ l := by
  intro l
  induction l with
  | nil => intro vp; left; rw [promoteVP]
  | cons t rest ih =>
      intro vp
      rw [promoteVP]
      by_cases hc : anc st vp t ∧ workOf st vp < workOf st t
      · rw [if_pos hc]
        rcases @ih t with h | h
        · right; rw [h]; simp
        · right; exact List.mem_cons_of_mem t h
      · rw [if_neg hc]
        rcases @ih vp with h | h
        · left; exact h
        · right; exact List.mem_cons_of_mem t h

/-- If the fold starts from an element of the set `l` trails behind, the
result is in `l`; used through `promoteVP_covered`. -/
theorem promoteVP_mem_of_mem {st : Store} {L : List Nat} :
    ∀ {l vp}, vp ∈ L → (∀ u ∈ l, u ∈ L) → promoteVP st vp l ∈ L := by
  intro l
  induction l with
  | nil => intro vp hvp _; rw [promoteVP]; exact hvp
  | cons t rest ih =>
      intro vp hvp hsub
      rw [promoteVP]
      by_cases hc : anc st vp t ∧ workOf st vp < workOf st t
      · rw [if_pos hc]
        exact ih (hsub t (by simp)) (fun u hu => hsub u (List.mem_cons_of_mem t hu))
      · rw [if_neg hc]
        exact ih hvp (fun u hu => hsub u (List.mem_cons_of_mem t hu))

/-- If some element of `l` has `vp` as an ancestor, the promotion fold lands
on an element of `l` (work is strictly monotone towards descendants, so a
covering tip either wins the comparison or *is* `vp`). -/
theorem promoteVP_covered {st : Store} (hwf : WF st) {L : List Nat}
    (hL : ∀ u ∈ L, u < st.length) :
    ∀ {l vp}, (∀ u ∈ l, u ∈ L) → (∃ u ∈ l, anc st vp u) → promoteVP st vp l ∈ L := by
  intro l
  induction l with
  | nil => intro vp _ h; rcases h with ⟨u, hu, -⟩; exact absurd hu (List.not_mem_nil u)
  | cons t rest ih =>
      intro vp hsub hcov
      rw [promoteVP]
      by_cases hc : anc st vp t ∧ workOf st vp < workOf st t
      · rw [if_pos hc]
        exact promoteVP_mem_of_mem (hsub t (by simp))
          (fun u hu => hsub u (List.mem_cons_of_mem t hu))
      · rw [if_neg hc]
        rcases hcov with ⟨u, hu, hanc⟩
        rcases List.mem_cons.1 hu with rfl | hu'
        · -- the covering tip is `t` but did not win: then `vp = t ∈ L`
          have htL : u ∈ L := hsub u (by simp)
          have hvplt : vp < st.length := anc_lt_length hwf (hL u htL) hanc
          by_cases hne : vp = u
          · subst hne
            exact promoteVP_mem_of_mem htL
              (fun x hx => hsub x (List.mem_cons_of_mem vp hx))
          · exact absurd ⟨hanc, anc_work_lt hwf (hL u htL) hanc hne⟩ hc
        · exact ih (fun x hx => hsub x (List.mem_cons_of_mem t hx)) ⟨u, hu', hanc⟩

/-- With no tip containing `block`, the second loop erases nothing: it keeps
every tip in order, leaves the chain and the flags alone, and promotes
`validPrev` by the fold above. -/
theorem scanTips_no_elim {st : Store} {b : Nat} {valid : Bool} :
    ∀ {rest : List Nat} {acc vp main modified already modifying},
      (∀ t ∈ rest, ¬ anc st b t) →
      ∃ already', scanTips st b valid acc rest vp main modified already modifying =
        .done (acc ++ rest) (promoteVP st vp rest) main modified already' modifying := by
  intro rest
  induction rest with
  | nil =>
      intro acc vp main modified already modifying _
      exact ⟨already, by rw [scanTips, promoteVP]; simp⟩
  | cons t rest ih =>
      intro acc vp main modified already modifying hno
      have hbt : ¬ anc st b t := hno t (by simp)
      rw [scanTips, if_neg hbt, promoteVP]
      by_cases hvpt : anc st vp t
      · rw [if_pos hvpt]
        by_cases hw : workOf st vp < workOf st t
        · rw [if_pos hw, if_pos ⟨hvpt, hw⟩]
          obtain ⟨a', ha'⟩ := ih (fun u hu => hno u (List.mem_cons_of_mem t hu))
          exact ⟨a', by rw [ha']; simp⟩
        · rw [if_neg hw, if_neg (fun hc => hw hc.2)]
          obtain ⟨a', ha'⟩ := ih (fun u hu => hno u (List.mem_cons_of_mem t hu))
          exact ⟨a', by rw [ha']; simp⟩
      · rw [if_neg hvpt, if_neg (fun hc => hvpt hc.1)]
        obtain ⟨a', ha'⟩ := ih (fun u hu => hno u (List.mem_cons_of_mem t hu))
        exact ⟨a', by rw [ha']; simp⟩

/-- An `earlyFalse` outcome means some tip contains the (valid) block. -/
theorem scanTips_earlyFalse {st : Store} {b : Nat} {valid : Bool} :
    ∀ {rest : List Nat} {acc vp main modified already modifying},
      scanTips st b valid acc rest vp main modified already modifying = .earlyFalse →
      valid = true ∧ ∃ t ∈ rest, anc st b t := by
  intro rest
  induction rest with
  | nil =>
      intro acc vp main modified already modifying h
      rw [scanTips] at h
      exact ScanResult.noConfusion h
  | cons t rest ih =>
      intro acc vp main modified already modifying h
      rw [scanTips] at h
      by_cases hbt : anc st b t
      · rw [if_pos hbt] at h
        by_cases hv : valid = true
        · exact ⟨hv, t, by simp, hbt⟩
        · rw [if_neg (by simpa using hv)] at h
          obtain ⟨hv', t', ht', ha'⟩ := ih h
          exact absurd hv' hv
      · rw [if_neg hbt] at h
        by_cases hvpt : anc st vp t
        · rw [if_pos hvpt] at h
          obtain ⟨hv, t', ht', ha'⟩ := ih h
          exact ⟨hv, t', List.mem_cons_of_mem t ht', ha'⟩
        · rw [if_neg hvpt] at h
          obtain ⟨hv, t', ht', ha'⟩ := ih h
          exact ⟨hv, t', List.mem_cons_of_mem t ht', ha'⟩

/-- With `valid = true` and some tip containing the block, the scan returns
`earlyFalse` (the code's "known on that chain" no-op). -/
theorem scanTips_covered_earlyFalse {st : Store} {b : Nat} :
    ∀ {rest : List Nat} {acc vp main modified already modifying},
      (∃ t ∈ rest, anc st b t) →
      scanTips st b true acc rest vp main modified already modifying = .earlyFalse := by
  intro rest
  induction rest with
  | nil =>
      intro acc vp main modified already modifying h
      rcases h with ⟨t, ht, -⟩
      exact absurd ht (List.not_mem_nil t)
  | cons t rest ih =>
      intro acc vp main modified already modifying h
      rw [scanTips]
      by_cases hbt : anc st b t
      · rw [if_pos hbt]; simp
      · rw [if_neg hbt]
        rcases h with ⟨t', ht', ha'⟩
        rcases List.mem_cons.1 ht' with rfl | ht''
        · exact absurd ha' hbt
        · by_cases hvpt : anc st vp t
          · rw [if_pos hvpt]
            exact ih ⟨t', ht'', ha'⟩
          · rw [if_neg hvpt]
            exact ih ⟨t', ht'', ha'⟩

/-! ### The `appendHeader` state invariant -/

/-- Tips are live, non-failed, and pairwise incomparable (no tip is an
ancestor of another; this also forces the list to be duplicate-free since
`anc` is reflexive). -/
def TipsOk (st : Store) (l : List Nat) : Prop :=
  (∀ t ∈ l, t < st.length ∧ failedOf st t = false) ∧
  l.Pairwise (fun a b => ¬ anc st a b ∧ ¬ anc st b a)

/-- States reachable by `appendHeader` from the empty ChainSet state satisfy
this invariant: tips are an antichain of live non-failed records, the main
tip exists as soon as any tip does, is itself live and non-failed, and its
chain work bounds every tip's. -/
def Good (st : Store) (s : ChainState) : Prop :=
  TipsOk st s.tips ∧
  (s.mainTip = none → s.tips = []) ∧
  (∀ m, s.mainTip = some m → m < st.length ∧ failedOf st m = false ∧
    ∀ t ∈ s.tips, workOf st t ≤ workOf st m)

theorem good_empty (st : Store) : Good st emptyChain := by
  refine ⟨⟨?_, ?_⟩, ?_, ?_⟩ <;> simp [emptyChain, TipsOk]

/-- What `appendHeader`'s `start`/`validPrev` computation yields: a live,
non-failed ancestor of `block`, dominating every live non-failed record
that is an ancestor of `block`. -/
theorem vp_of_walk {st : Store} (hwf : WF st) {b start vp : Nat} (hb : b < st.length)
    (hstart : (if !failedOf st b then some b else prevOf st b) = some start)
    (hvp : walkValidPrev st start = some vp) :
    vp < st.length ∧ failedOf st vp = false ∧ anc st vp b ∧
      (∀ t, t < st.length → failedOf st t = false → anc st t b → anc st t vp) ∧
      (failedOf st b = false → vp = b) := by
  by_cases hfb : failedOf st b = true
  · rw [if_neg (by simp [hfb])] at hstart
    obtain ⟨hstlt, hsth, -⟩ := prev_facts hwf hstart
    obtain ⟨vp', hvp', hvplt, hvpf, hvpanc, hvpmax⟩ :=
      walkValidPrev_spec hwf start hstlt
    have hveq : vp = vp' := by
      rw [hvp'] at hvp
      exact (Option.some_injective _ hvp).symm
    subst hveq
    have hvpb : anc st vp b := by
      have hle : heightOf st vp ≤ heightOf st start := anc_le_height hvpanc
      rw [anc, getAncestor_step hwf hstart (by omega)]
      exact hvpanc
    refine ⟨hvplt, hvpf, hvpb, ?_, fun hc => absurd hfb (by simp [hc])⟩
    intro t htlt htf htb
    have hne : t ≠ b := by
      rintro rfl; rw [hfb] at htf; exact Bool.noConfusion htf
    obtain ⟨p, hp, htp⟩ := anc_strict_step hwf hb htb hne
    rw [hstart] at hp
    injection hp with hp
    subst hp
    have hhle : heightOf st t ≤ heightOf st vp := hvpmax t htp htf
    exact anc_of_both hwf hstlt htp hvpanc hhle
  · have hfb' : failedOf st b = false := by simpa using hfb
    rw [if_pos (by simp [hfb'])] at hstart
    injection hstart with hstart
    subst hstart
    rw [walkValidPrev_nonfailed hb hfb'] at hvp
    injection hvp with hvp
    subst hvp
    exact ⟨hb, hfb', anc_refl st b, fun t _ _ htb => htb, fun _ => rfl⟩

/-- On a well-formed store, no non-failed tip can contain a failed block. -/
theorem no_tip_contains_failed {st : Store} (hwf : WF st) {b : Nat} {l : List Nat}
    (hl : ∀ t ∈ l, t < st.length ∧ failedOf st t = false)
    (hfb : failedOf st b = true) : ∀ t ∈ l, ¬ anc st b t := by
  intro t ht hanc
  obtain ⟨htlt, htf⟩ := hl t ht
  rw [anc_failed hwf htlt hanc hfb] at htf
  exact Bool.noConfusion htf

theorem promoteVP_id {st : Store} :
    ∀ {l vp}, (∀ t ∈ l, ¬ anc st vp t) → promoteVP st vp l = vp := by
  intro l
  induction l with
  | nil => intro vp _; rw [promoteVP]
  | cons t rest ih =>
      intro vp h
      rw [promoteVP, if_neg (fun hc => h t (by simp) hc.1)]
      exact ih (fun u hu => h u (List.mem_cons_of_mem t hu))

/-- Unpack a successful `finalCheck`. -/
theorem finalCheck_cases {st : Store} {s : ChainState} {vp : Nat} {modifying : Bool}
    {s' : ChainState} {r : Bool} (h : finalCheck st s vp modifying = some (s', r)) :
    ∃ m, s.mainTip = some m ∧
      ((workOf st m < workOf st vp ∧ s' = ⟨s.tips, some vp⟩ ∧ r = true) ∨
       (¬ workOf st m < workOf st vp ∧ s' = s ∧ r = modifying)) := by
  rw [finalCheck] at h
  rcases hm : s.mainTip with _ | m
  · rw [hm] at h; exact Option.noConfusion h
  · rw [hm] at h
    dsimp only at h
    by_cases hw : workOf st m < workOf st vp
    · rw [if_pos hw] at h
      injection h with h
      injection h with h1 h2
      exact ⟨m, rfl, Or.inl ⟨hw, h1.symm, h2.symm⟩⟩
    · rw [if_neg hw] at h
      injection h with h
      injection h with h1 h2
      exact ⟨m, rfl, Or.inr ⟨hw, h1.symm, h2.symm⟩⟩

/-- After the extension case replaces tip `t` by `validPrev`, the tips stay an
antichain of live non-failed records, and `t` is an ancestor of `validPrev`. -/
theorem ext_tipsok {st : Store} (hwf : WF st) {b vp : Nat} {tips pre post : List Nat} {t : Nat}
    (hb : b < st.length) (htips : TipsOk st tips)
    (hext : extFind st b tips = some (pre, t, post))
    (hvplt : vp < st.length) (hvpf : failedOf st vp = false) (hvpanc : anc st vp b)
    (hvpdom : ∀ u, u < st.length → failedOf st u = false → anc st u b → anc st u vp) :
    TipsOk st (pre ++ post ++ [vp]) ∧ anc st t vp ∧ tips = pre ++ t :: post := by
  obtain ⟨hlive, hpw⟩ := htips
  obtain ⟨hsub, htb, hprenone⟩ := extFind_some hext
  subst hsub
  have htmem : t ∈ pre ++ t :: post := by simp
  obtain ⟨htlt, htf⟩ := hlive t htmem
  have htvp : anc st t vp := hvpdom t htlt htf htb
  rw [List.pairwise_append] at hpw
  obtain ⟨hpwPre, hpwCons, hcross⟩ := hpw
  rw [List.pairwise_cons] at hpwCons
  obtain ⟨htpost, hpwPost⟩ := hpwCons
  have hmemOrig : ∀ u ∈ pre ++ post, u ∈ pre ++ t :: post := by
    intro u hu
    rcases List.mem_append.1 hu with hu | hu
    · exact List.mem_append_left _ hu
    · exact List.mem_append_right _ (List.mem_cons_of_mem t hu)
  have hliveOrig : ∀ u ∈ pre ++ post, u < st.length ∧ failedOf st u = false :=
    fun u hu => hlive u (hmemOrig u hu)
  have hincomp : ∀ u ∈ pre ++ post, ¬ anc st u t ∧ ¬ anc st t u := by
    intro u hu
    rcases List.mem_append.1 hu with hu | hu
    · exact hcross u hu t (by simp)
    · obtain ⟨h1, h2⟩ := htpost u hu
      exact ⟨h2, h1⟩
  have hRvp : ∀ u ∈ pre ++ post, ¬ anc st u vp ∧ ¬ anc st vp u := by
    intro u hu
    obtain ⟨hult, huf⟩ := hliveOrig u hu
    obtain ⟨hut, htu⟩ := hincomp u hu
    constructor
    · intro huvp
      have hub : anc st u b := anc_trans hwf hb huvp hvpanc
      rcases le_total (heightOf st u) (heightOf st t) with hle | hle
      · exact hut (anc_of_both hwf hb hub htb hle)
      · exact htu (anc_of_both hwf hb htb hub hle)
    · intro hvpu
      exact htu (anc_trans hwf hult htvp hvpu)
  refine ⟨⟨?_, ?_⟩, htvp, rfl⟩
  · intro u hu
    rcases List.mem_append.1 hu with hu | hu
    · exact hliveOrig u hu
    · rw [List.mem_singleton] at hu
      subst hu
      exact ⟨hvplt, hvpf⟩
  · rw [List.append_assoc, List.pairwise_append]
    refine ⟨hpwPre, ?_, ?_⟩
    · rw [List.pairwise_append]
      refine ⟨hpwPost, by simp, ?_⟩
      intro a ha x hx
      rw [List.mem_singleton] at hx
      subst hx
      exact hRvp a (List.mem_append_right _ ha)
    · intro a ha x hx
      rcases List.mem_append.1 hx with hx | hx
      · exact hcross a ha x (List.mem_cons_of_mem t hx)
      · rw [List.mem_singleton] at hx
        subst hx
        exact hRvp a (List.mem_append_left _ ha)

/-- `appendHeader` preserves the state invariant on a well-formed store. -/
theorem appendHeader_good {st : Store} {s s' : ChainState} {b : Nat} {r : Bool}
    (hwf : WF st) (hg : Good st s) (hb : b < st.length)
    (h : appendHeader st s b = some (s', r)) : Good st s' := by
  obtain ⟨⟨hlive, hpw⟩, hnone, hmain⟩ := hg
  rw [appendHeader] at h
  by_cases hcont : (!failedOf st b && chainContains st s.mainTip b) = true
  · rw [if_pos hcont] at h
    rw [Option.some_inj, Prod.mk.injEq] at h
    obtain ⟨h1, -⟩ := h
    rw [← h1]
    exact ⟨⟨hlive, hpw⟩, hnone, hmain⟩
  · rw [if_neg hcont] at h
    rcases hstart : (if !failedOf st b then some b else prevOf st b) with _ | start
    · rw [hstart] at h; exact Option.noConfusion h
    rw [hstart] at h
    dsimp only at h
    rcases hvp0 : walkValidPrev st start with _ | vp
    · rw [hvp0] at h; exact Option.noConfusion h
    rw [hvp0] at h
    dsimp only at h
    obtain ⟨hvplt, hvpf, hvpanc, hvpdom, hvpvalid⟩ := vp_of_walk hwf hb hstart hvp0
    rcases hext : extFind st b s.tips with _ | ⟨pre, t, post⟩
    · -- no tip is extended: the scan loop runs
      rw [hext] at h
      dsimp only at h
      by_cases hfb : failedOf st b = true
      · -- invalid block: nothing is erased, `validPrev` may be promoted
        have hnotips : ∀ u ∈ s.tips, ¬ anc st b u :=
          no_tip_contains_failed hwf hlive hfb
        obtain ⟨alr, hscan⟩ :=
          @scanTips_no_elim st b (!failedOf st b) s.tips [] vp s.mainTip
            false false false hnotips
        rw [hscan] at h
        dsimp only at h
        simp only [hfb, Bool.not_true, Bool.false_and, Bool.false_eq_true, if_false,
          List.nil_append] at h
        obtain ⟨m, hm, hcase⟩ := finalCheck_cases h
        obtain ⟨hmlt, hmf, hmbound⟩ := hmain m hm
        have hvqfacts : promoteVP st vp s.tips < st.length ∧
            failedOf st (promoteVP st vp s.tips) = false := by
          rcases @promoteVP_mem st s.tips vp with hq | hq
          · rw [hq]; exact ⟨hvplt, hvpf⟩
          · exact hlive _ hq
        rcases hcase with ⟨hwlt, rfl, -⟩ | ⟨hwge, rfl, -⟩
        · refine ⟨⟨hlive, hpw⟩, by simp, ?_⟩
          intro m' hm'
          rw [Option.some_inj] at hm'
          rw [← hm']
          refine ⟨hvqfacts.1, hvqfacts.2, ?_⟩
          intro u hu
          exact le_trans (hmbound u hu) (le_of_lt hwlt)
        · exact ⟨⟨hlive, hpw⟩, hnone, hmain⟩
      · -- valid block, not extending any tip
        have hfb' : failedOf st b = false := by simpa using hfb
        have hvb : b = vp := (hvpvalid hfb').symm
        subst hvb
        rcases hscan0 : scanTips st b (!failedOf st b) [] s.tips b s.mainTip false false false
          with _ | ⟨kept, vp', main', modified, already, modifying⟩
        · -- earlyFalse: the block is already on a known chain, no-op
          rw [hscan0] at h
          dsimp only at h
          rw [Option.some_inj, Prod.mk.injEq] at h
          obtain ⟨h1, -⟩ := h
          rw [← h1]
          exact ⟨⟨hlive, hpw⟩, hnone, hmain⟩
        · have hnocover : ∀ u ∈ s.tips, ¬ anc st b u := by
            intro u hu hanc
            have hv : (!failedOf st b) = true := by simp [hfb']
            rw [hv, scanTips_covered_earlyFalse ⟨u, hu, hanc⟩] at hscan0
            exact ScanResult.noConfusion hscan0
          obtain ⟨alr, hscan⟩ :=
            @scanTips_no_elim st b (!failedOf st b) s.tips [] b s.mainTip
              false false false hnocover
          rw [hscan0, List.nil_append, promoteVP_id (fun u hu => hnocover u hu)] at hscan
          simp only [ScanResult.done.injEq] at hscan
          obtain ⟨rfl, h2, rfl, rfl, h5, rfl⟩ := hscan
          rw [hscan0] at h
          dsimp only at h
          rw [h2] at h
          simp only [hfb', Bool.not_false, Bool.false_and, Bool.and_false,
            Bool.false_eq_true, if_false, if_true] at h
          have htipsb : TipsOk st (s.tips ++ [b]) := by
            refine ⟨?_, ?_⟩
            · intro u hu
              rcases List.mem_append.1 hu with hu | hu
              · exact hlive u hu
              · rw [List.mem_singleton] at hu
                rw [hu]
                exact ⟨hb, hfb'⟩
            · rw [List.pairwise_append]
              refine ⟨hpw, by simp, ?_⟩
              intro a ha x hx
              rw [List.mem_singleton] at hx
              subst hx
              exact ⟨extFind_none hext a ha, hnocover a ha⟩
          rcases hm0 : s.mainTip with _ | m
          · rw [hm0] at h
            dsimp only at h
            rw [Option.some_inj, Prod.mk.injEq] at h
            obtain ⟨h1, -⟩ := h
            rw [← h1]
            have htips0 : s.tips = [] := hnone hm0
            refine ⟨by rw [htips0] at htipsb; rw [htips0]; exact htipsb, by simp, ?_⟩
            intro m' hm'
            rw [Option.some_inj] at hm'
            rw [← hm']
            refine ⟨hb, hfb', ?_⟩
            intro u hu
            rw [htips0, List.nil_append, List.mem_singleton] at hu
            rw [hu]
          · rw [hm0] at h
            dsimp only at h
            obtain ⟨m1, hm1, hcase⟩ := finalCheck_cases h
            rw [Option.some_inj] at hm1
            rw [← hm1] at hcase
            obtain ⟨hmlt, hmf, hmbound⟩ := hmain m hm0
            rcases hcase with ⟨hwlt, rfl, -⟩ | ⟨hwge, rfl, -⟩
            · refine ⟨htipsb, by simp, ?_⟩
              intro m' hm'
              rw [Option.some_inj] at hm'
              rw [← hm']
              refine ⟨hb, hfb', ?_⟩
              intro u hu
              rcases List.mem_append.1 hu with hu | hu
              · exact le_trans (hmbound u hu) (le_of_lt hwlt)
              · rw [List.mem_singleton] at hu
                rw [hu]
            · refine ⟨htipsb, by simp, ?_⟩
              intro m' hm'
              rw [Option.some_inj] at hm'
              rw [← hm']
              refine ⟨hmlt, hmf, ?_⟩
              intro u hu
              rcases List.mem_append.1 hu with hu | hu
              · exact hmbound u hu
              · rw [List.mem_singleton] at hu
                rw [hu]
                omega
    · -- extension case: `t` is an ancestor of the block, replaced by `validPrev`
      rw [hext] at h
      dsimp only at h
      obtain ⟨⟨hlive', hpw'⟩, htvp, hsub⟩ :=
        ext_tipsok hwf hb ⟨hlive, hpw⟩ hext hvplt hvpf hvpanc hvpdom
      have htmem : t ∈ s.tips := by rw [hsub]; simp
      obtain ⟨htlt, htf⟩ := hlive t htmem
      by_cases hmt : s.mainTip = some t
      · rw [if_pos hmt] at h
        rw [Option.some_inj, Prod.mk.injEq] at h
        obtain ⟨h1, -⟩ := h
        rw [← h1]
        obtain ⟨-, -, hmbound⟩ := hmain t hmt
        refine ⟨⟨hlive', hpw'⟩, by simp, ?_⟩
        intro m' hm'
        rw [Option.some_inj] at hm'
        rw [← hm']
        refine ⟨hvplt, hvpf, ?_⟩
        intro u hu
        rcases List.mem_append.1 hu with hu | hu
        · have humem : u ∈ s.tips := by
            rw [hsub]
            rcases List.mem_append.1 hu with hu | hu
            · exact List.mem_append_left _ hu
            · exact List.mem_append_right _ (List.mem_cons_of_mem t hu)
          exact le_trans (hmbound u humem) (anc_work_le hwf hvplt htvp)
        · rw [List.mem_singleton] at hu
          rw [hu]
      · rw [if_neg hmt] at h
        obtain ⟨m, hm, hcase⟩ := finalCheck_cases h
        obtain ⟨hmlt, hmf, hmbound⟩ := hmain m hm
        have hubound : ∀ u ∈ pre ++ post, workOf st u ≤ workOf st m := by
          intro u hu
          have humem : u ∈ s.tips := by
            rw [hsub]
            rcases List.mem_append.1 hu with hu | hu
            · exact List.mem_append_left _ hu
            · exact List.mem_append_right _ (List.mem_cons_of_mem t hu)
          exact hmbound u humem
        rcases hcase with ⟨hwlt, rfl, -⟩ | ⟨hwge, rfl, -⟩
        · refine ⟨⟨hlive', hpw'⟩, by simp, ?_⟩
          intro m' hm'
          rw [Option.some_inj] at hm'
          rw [← hm']
          refine ⟨hvplt, hvpf, ?_⟩
          intro u hu
          rcases List.mem_append.1 hu with hu | hu
          · exact le_trans (hubound u hu) (le_of_lt hwlt)
          · rw [List.mem_singleton] at hu
            rw [hu]
        · dsimp only at hm
          refine ⟨⟨hlive', hpw'⟩, ?_, ?_⟩
          · intro hn
            dsimp only at hn
            rw [hn] at hm
            exact Option.noConfusion hm
          · intro m' hm'
            dsimp only at hm'
            rw [hm, Option.some_inj] at hm'
            rw [← hm']
            refine ⟨hmlt, hmf, ?_⟩
            intro u hu
            rcases List.mem_append.1 hu with hu | hu
            · exact hubound u hu
            · rw [List.mem_singleton] at hu
              rw [hu]
              omega

/-- States reachable from the empty ChainSet state are `Good`. -/
theorem runAppend_good_aux {st : Store} (hwf : WF st) :
    ∀ {ids : List Nat} {s₀ s : ChainState}, Good st s₀ → (∀ i ∈ ids, i < st.length) →
      runAppend st s₀ ids = some s → Good st s := by
  intro ids
  induction ids with
  | nil =>
      intro s₀ s hg _ h
      rw [runAppend] at h
      rw [Option.some_inj] at h
      rw [← h]
      exact hg
  | cons b bs ih =>
      intro s₀ s hg hids h
      rw [runAppend] at h
      rcases ha : appendHeader st s₀ b with _ | ⟨s', r⟩
      · rw [ha] at h; exact Option.noConfusion h
      · rw [ha] at h
        dsimp only at h
        exact ih (appendHeader_good hwf hg (hids b (by simp)) ha)
          (fun i hi => hids i (List.mem_cons_of_mem b hi)) h

theorem runAppend_good {st : Store} {ids : List Nat} {s : ChainState} (hwf : WF st)
    (hids : ∀ i ∈ ids, i < st.length) (h : runAppend st emptyChain ids = some s) :
    Good st s :=
  runAppend_good_aux hwf (good_empty st) hids h

/-- Apart from the found tip, no surviving tip satisfies the extension test. -/
theorem ext_no_other {st : Store} (hwf : WF st) {b : Nat} {tips pre post : List Nat} {t : Nat}
    (hb : b < st.length) (htips : TipsOk st tips)
    (hext : extFind st b tips = some (pre, t, post)) :
    ∀ u ∈ pre ++ post, ¬ anc st u b := by
  obtain ⟨hlive, hpw⟩ := htips
  obtain ⟨hsub, htb, hprenone⟩ := extFind_some hext
  subst hsub
  rw [List.pairwise_append] at hpw
  obtain ⟨-, hpwCons, hcross⟩ := hpw
  rw [List.pairwise_cons] at hpwCons
  obtain ⟨htpost, -⟩ := hpwCons
  intro u hu hub
  rcases List.mem_append.1 hu with hu | hu
  · exact hprenone u hu hub
  · obtain ⟨h1, h2⟩ := htpost u hu
    rcases le_total (heightOf st u) (heightOf st t) with hle | hle
    · exact h2 (anc_of_both hwf hb hub htb hle)
    · exact h1 (anc_of_both hwf hb htb hub hle)

/-- If no earlier entry matches and the last one does, `extFind` finds the
last entry. -/
theorem extFind_append_last {st : Store} {b vp : Nat} (hvp : anc st vp b) :
    ∀ {l : List Nat}, (∀ u ∈ l, ¬ anc st u b) →
      extFind st b (l ++ [vp]) = some (l, vp, []) := by
  intro l
  induction l with
  | nil =>
      intro _
      rw [List.nil_append, extFind, if_pos hvp]
  | cons x rest ih =>
      intro hno
      rw [List.cons_append, extFind, if_neg (hno x (by simp)),
        ih (fun u hu => hno u (List.mem_cons_of_mem x hu))]

theorem chainContains_self {st : Store} {b : Nat} :
    chainContains st (some b) b = true := by
  rw [chainContains]
  simp [getAncestor_self]

/-- Re-appending a record whose `validPrev` is the main tip and the last tip:
the extension case erases and re-appends that tip, leaving the state
unchanged (a valid record is caught by the `Contains` no-op first). -/
theorem appendHeader_again_tip {st : Store} {b start vp : Nat} {l : List Nat}
    (hstart : (if !failedOf st b then some b else prevOf st b) = some start)
    (hvp0 : walkValidPrev st start = some vp)
    (hext2 : extFind st b (l ++ [vp]) = some (l, vp, []))
    (hvb : failedOf st b = false → vp = b) :
    ∃ r₂, appendHeader st ⟨l ++ [vp], some vp⟩ b = some (⟨l ++ [vp], some vp⟩, r₂) ∧
      (failedOf st b = false → r₂ = false) := by
  by_cases hfb : failedOf st b = false
  · refine ⟨false, ?_, fun _ => rfl⟩
    rw [appendHeader]
    have hcond : (!failedOf st b &&
        chainContains st (ChainState.mk (l ++ [vp]) (some vp)).mainTip b) = true := by
      dsimp only
      rw [hvb hfb]
      simp [hfb, chainContains_self]
    rw [if_pos hcond]
  · have hfb' : failedOf st b = true := by simpa using hfb
    refine ⟨true, ?_, fun hc => absurd hc hfb⟩
    rw [appendHeader, if_neg (by simp [hfb'])]
    rw [hstart]
    dsimp only
    rw [hvp0]
    dsimp only
    rw [hext2]
    simp

/-- Re-appending a record whose `validPrev` is the last tip while the main tip
`m` has at least as much work: the extension case erases and re-appends that
tip and the final comparison declines to move the chain. -/
theorem appendHeader_again_noswitch {st : Store} {b start vp m : Nat} {l : List Nat}
    (hstart : (if !failedOf st b then some b else prevOf st b) = some start)
    (hvp0 : walkValidPrev st start = some vp)
    (hext2 : extFind st b (l ++ [vp]) = some (l, vp, []))
    (hwge : ¬ workOf st m < workOf st vp)
    (hvb : failedOf st b = false → vp = b) :
    ∃ r₂, appendHeader st ⟨l ++ [vp], some m⟩ b = some (⟨l ++ [vp], some m⟩, r₂) ∧
      (failedOf st b = false → r₂ = false) := by
  by_cases hcont : (!failedOf st b &&
      chainContains st (ChainState.mk (l ++ [vp]) (some m)).mainTip b) = true
  · refine ⟨false, ?_, fun _ => rfl⟩
    rw [appendHeader, if_pos hcont]
  · by_cases hmv : m = vp
    · subst hmv
      -- the main tip is `validPrev` itself: the extension branch re-sets it
      have hfb' : failedOf st b = true := by
        by_contra hfb
        have hfb2 : failedOf st b = false := by simpa using hfb
        apply hcont
        dsimp only
        rw [hvb hfb2]
        simp [hfb2, chainContains_self]
      refine ⟨true, ?_, fun hc => absurd hc (by simp [hfb'])⟩
      rw [appendHeader, if_neg hcont]
      rw [hstart]
      dsimp only
      rw [hvp0]
      dsimp only
      rw [hext2]
      simp
    · refine ⟨false, ?_, fun _ => rfl⟩
      rw [appendHeader, if_neg hcont]
      rw [hstart]
      dsimp only
      rw [hvp0]
      dsimp only
      rw [hext2]
      dsimp only
      rw [if_neg (by simp; exact fun hc => hmv hc)]
      rw [finalCheck]
      dsimp only
      rw [if_neg hwge]
      simp

/-- Re-appending an invalid record that extends no tip and is contained in no
tip: the scan loop only re-promotes `validPrev`, and the final comparison
declines to move the chain. -/
theorem appendHeader_again_scan {st : Store} {b start vp m : Nat} {tips : List Nat}
    (hfb : failedOf st b = true)
    (hstart : (if !failedOf st b then some b else prevOf st b) = some start)
    (hvp0 : walkValidPrev st start = some vp)
    (hext : extFind st b tips = none)
    (hnotips : ∀ u ∈ tips, ¬ anc st b u)
    (hwge : ¬ workOf st m < workOf st (promoteVP st vp tips)) :
    appendHeader st ⟨tips, some m⟩ b = some (⟨tips, some m⟩, false) := by
  rw [appendHeader, if_neg (by simp [hfb])]
  rw [hstart]
  dsimp only
  rw [hvp0]
  dsimp only
  rw [show extFind st b (ChainState.mk tips (some m)).tips = none from hext]
  dsimp only
  obtain ⟨alr, hscan⟩ :=
    @scanTips_no_elim st b (!failedOf st b) tips [] vp (some m) false false false hnotips
  rw [show scanTips st b (!failedOf st b) []
      (ChainState.mk tips (some m)).tips vp (ChainState.mk tips (some m)).mainTip
      false false false =
      ScanResult.done ([] ++ tips) (promoteVP st vp tips) (some m) false alr false from hscan]
  dsimp only
  simp only [hfb, Bool.not_true, Bool.false_and, Bool.false_eq_true, if_false,
    List.nil_append]
  rw [finalCheck]
  dsimp only
  rw [if_neg hwge]

/-- On a `Good` state, running `appendHeader` twice on the same record leaves
the state of the first call unchanged, and the second call returns `false`
whenever the record is valid. -/
theorem appendHeader_idem {st : Store} {s s₁ : ChainState} {b : Nat} {r₁ : Bool}
    (hwf : WF st) (hg : Good st s) (hb : b < st.length)
    (h : appendHeader st s b = some (s₁, r₁)) :
    ∃ r₂, appendHeader st s₁ b = some (s₁, r₂) ∧ (failedOf st b = false → r₂ = false) := by
  obtain ⟨⟨hlive, hpw⟩, hnone, hmain⟩ := hg
  rw [appendHeader] at h
  by_cases hcont : (!failedOf st b && chainContains st s.mainTip b) = true
  · rw [if_pos hcont] at h
    rw [Option.some_inj, Prod.mk.injEq] at h
    obtain ⟨h1, -⟩ := h
    subst h1
    exact ⟨false, by rw [appendHeader, if_pos hcont], fun _ => rfl⟩
  · rw [if_neg hcont] at h
    rcases hstart : (if !failedOf st b then some b else prevOf st b) with _ | start
    · rw [hstart] at h; exact Option.noConfusion h
    rw [hstart] at h
    dsimp only at h
    rcases hvp0 : walkValidPrev st start with _ | vp
    · rw [hvp0] at h; exact Option.noConfusion h
    rw [hvp0] at h
    dsimp only at h
    obtain ⟨hvplt, hvpf, hvpanc, hvpdom, hvpvalid⟩ := vp_of_walk hwf hb hstart hvp0
    rcases hext : extFind st b s.tips with _ | ⟨pre, t, post⟩
    · -- scan path
      rw [hext] at h
      dsimp only at h
      by_cases hfb : failedOf st b = true
      · -- invalid block: only promotion happened, nothing to redo
        have hnotips : ∀ u ∈ s.tips, ¬ anc st b u := no_tip_contains_failed hwf hlive hfb
        obtain ⟨alr, hscan⟩ :=
          @scanTips_no_elim st b (!failedOf st b) s.tips [] vp s.mainTip
            false false false hnotips
        rw [hscan] at h
        dsimp only at h
        simp only [hfb, Bool.not_true, Bool.false_and, Bool.false_eq_true, if_false,
          List.nil_append] at h
        obtain ⟨m, hm, hcase⟩ := finalCheck_cases h
        dsimp only at hm
        rcases hcase with ⟨hwlt, h1, -⟩ | ⟨hwge, h1, -⟩
        · subst h1
          refine ⟨false, ?_, fun hc => absurd hc (by simp [hfb])⟩
          exact appendHeader_again_scan hfb hstart hvp0 hext hnotips (lt_irrefl _)
        · subst h1
          refine ⟨false, ?_, fun hc => absurd hc (by simp [hfb])⟩
          rw [hm]
          exact appendHeader_again_scan hfb hstart hvp0 hext hnotips hwge
      · -- valid block
        have hfb' : failedOf st b = false := by simpa using hfb
        have hvb : b = vp := (hvpvalid hfb').symm
        subst hvb
        rcases hscan0 : scanTips st b (!failedOf st b) [] s.tips b s.mainTip false false false
          with _ | ⟨kept, vp', main', modified, already, modifying⟩
        · -- earlyFalse: no-op, the rerun takes the same path
          rw [hscan0] at h
          dsimp only at h
          rw [Option.some_inj, Prod.mk.injEq] at h
          obtain ⟨h1, -⟩ := h
          subst h1
          refine ⟨false, ?_, fun _ => rfl⟩
          rw [appendHeader, if_neg hcont]
          rw [hstart]
          dsimp only
          rw [hvp0]
          dsimp only
          rw [hext]
          dsimp only
          rw [hscan0]
        · have hnocover : ∀ u ∈ s.tips, ¬ anc st b u := by
            intro u hu hanc
            have hv : (!failedOf st b) = true := by simp [hfb']
            rw [hv, scanTips_covered_earlyFalse ⟨u, hu, hanc⟩] at hscan0
            exact ScanResult.noConfusion hscan0
          obtain ⟨alr, hscan⟩ :=
            @scanTips_no_elim st b (!failedOf st b) s.tips [] b s.mainTip
              false false false hnocover
          rw [hscan0, List.nil_append, promoteVP_id (fun u hu => hnocover u hu)] at hscan
          simp only [ScanResult.done.injEq] at hscan
          obtain ⟨rfl, h2, rfl, rfl, h5, rfl⟩ := hscan
          rw [hscan0] at h
          dsimp only at h
          rw [h2] at h
          simp only [hfb', Bool.not_false, Bool.false_and, Bool.and_false,
            Bool.false_eq_true, if_false, if_true] at h
          have hext2 : extFind st b (s.tips ++ [b]) = some (s.tips, b, []) :=
            extFind_append_last (anc_refl st b) (fun u hu => extFind_none hext u hu)
          rcases hm0 : s.mainTip with _ | m
          · rw [hm0] at h
            dsimp only at h
            rw [Option.some_inj, Prod.mk.injEq] at h
            obtain ⟨h1, -⟩ := h
            subst h1
            exact appendHeader_again_tip hstart hvp0 hext2 hvpvalid
          · rw [hm0] at h
            dsimp only at h
            obtain ⟨m1, hm1, hcase⟩ := finalCheck_cases h
            rw [Option.some_inj] at hm1
            subst hm1
            rcases hcase with ⟨hwlt, h1, -⟩ | ⟨hwge, h1, -⟩
            · subst h1
              exact appendHeader_again_tip hstart hvp0 hext2 hvpvalid
            · subst h1
              exact appendHeader_again_noswitch hstart hvp0 hext2 hwge hvpvalid
    · -- extension path
      rw [hext] at h
      dsimp only at h
      have hnoother : ∀ u ∈ pre ++ post, ¬ anc st u b :=
        ext_no_other hwf hb ⟨hlive, hpw⟩ hext
      have hext2 : extFind st b (pre ++ post ++ [vp]) = some (pre ++ post, vp, []) :=
        extFind_append_last hvpanc hnoother
      by_cases hmt : s.mainTip = some t
      · rw [if_pos hmt] at h
        rw [Option.some_inj, Prod.mk.injEq] at h
        obtain ⟨h1, -⟩ := h
        subst h1
        exact appendHeader_again_tip hstart hvp0 hext2 hvpvalid
      · rw [if_neg hmt] at h
        obtain ⟨m, hm, hcase⟩ := finalCheck_cases h
        dsimp only at hm
        rcases hcase with ⟨hwlt, h1, -⟩ | ⟨hwge, h1, -⟩
        · subst h1
          exact appendHeader_again_tip hstart hvp0 hext2 hvpvalid
        · subst h1
          rw [hm]
          exact appendHeader_again_noswitch hstart hvp0 hext2 hwge hvpvalid

/-! ### The claim-P3 invariant: coverage and the main tip's membership -/

/-- `x` lies on the chain of some tip. -/
def Covered (st : Store) (s : ChainState) (x : Nat) : Prop := ∃ t ∈ s.tips, anc st x t

/-- Invariant for parents-first append sequences: on top of `Good`, the main
tip is an entry of `tips`, and every non-failed appended record lies on the
chain of some tip. -/
def InvC1 (st : Store) (done : List Nat) (s : ChainState) : Prop :=
  Good st s ∧
  (∀ m, s.mainTip = some m → m ∈ s.tips) ∧
  (∀ x ∈ done, failedOf st x = false → Covered st s x)

theorem chainContains_anc {st : Store} {m b : Nat}
    (h : chainContains st (some m) b = true) : anc st b m := by
  rw [chainContains] at h
  rw [beq_iff_eq] at h
  exact h

/-- One `appendHeader` step preserves the claim-P3 invariant, provided every
proper ancestor of the appended record was appended before it.  The resulting
state also always has a main tip. -/
theorem appendHeader_invC1 {st : Store} {s s' : ChainState} {b : Nat} {r : Bool}
    {done : List Nat}
    (hwf : WF st) (hinv : InvC1 st done s) (hb : b < st.length)
    (hancdone : ∀ j, j ≠ b → anc st j b → j ∈ done)
    (h : appendHeader st s b = some (s', r)) :
    InvC1 st (done ++ [b]) s' ∧ s'.mainTip ≠ none := by
  obtain ⟨hg, hin, hcov⟩ := hinv
  have hg' : Good st s' := appendHeader_good hwf hg hb h
  obtain ⟨⟨hlive, hpw⟩, hnone, hmain⟩ := hg
  have hcovnew : ∀ x ∈ done ++ [b], failedOf st x = false → Covered st s' x → True := by
    intro _ _ _ _; trivial
  rw [appendHeader] at h
  by_cases hcont : (!failedOf st b && chainContains st s.mainTip b) = true
  · rw [if_pos hcont] at h
    rw [Option.some_inj, Prod.mk.injEq] at h
    obtain ⟨h1, -⟩ := h
    subst h1
    rw [Bool.and_eq_true] at hcont
    rcases hm : s.mainTip with _ | m
    · rw [hm] at hcont
      rw [chainContains] at hcont
      exact absurd hcont.2 (by simp)
    · refine ⟨⟨hg', hin, ?_⟩, by simp⟩
      intro x hx hxf
      rcases List.mem_append.1 hx with hx | hx
      · exact hcov x hx hxf
      · rw [List.mem_singleton] at hx
        subst hx
        rw [hm] at hcont
        exact ⟨m, hin m hm, chainContains_anc hcont.2⟩
  · rw [if_neg hcont] at h
    rcases hstart : (if !failedOf st b then some b else prevOf st b) with _ | start
    · rw [hstart] at h; exact Option.noConfusion h
    rw [hstart] at h
    dsimp only at h
    rcases hvp0 : walkValidPrev st start with _ | vp
    · rw [hvp0] at h; exact Option.noConfusion h
    rw [hvp0] at h
    dsimp only at h
    obtain ⟨hvplt, hvpf, hvpanc, hvpdom, hvpvalid⟩ := vp_of_walk hwf hb hstart hvp0
    rcases hext : extFind st b s.tips with _ | ⟨pre, t, post⟩
    · -- scan path
      rw [hext] at h
      dsimp only at h
      by_cases hfb : failedOf st b = true
      · -- invalid block
        have hnotips : ∀ u ∈ s.tips, ¬ anc st b u := no_tip_contains_failed hwf hlive hfb
        obtain ⟨alr, hscan⟩ :=
          @scanTips_no_elim st b (!failedOf st b) s.tips [] vp s.mainTip
            false false false hnotips
        rw [hscan] at h
        dsimp only at h
        simp only [hfb, Bool.not_true, Bool.false_and, Bool.false_eq_true, if_false,
          List.nil_append] at h
        obtain ⟨m, hm, hcase⟩ := finalCheck_cases h
        dsimp only at hm
        have hcovmem : ∀ x ∈ done ++ [b], failedOf st x = false →
            ∃ u ∈ s.tips, anc st x u := by
          intro x hx hxf
          rcases List.mem_append.1 hx with hx | hx
          · exact hcov x hx hxf
          · rw [List.mem_singleton] at hx
            subst hx
            rw [hfb] at hxf
            exact Bool.noConfusion hxf
        rcases hcase with ⟨hwlt, h1, -⟩ | ⟨hwge, h1, -⟩
        · subst h1
          refine ⟨⟨hg', ?_, fun x hx hxf => hcovmem x hx hxf⟩, by exact Option.noConfusion⟩
          intro m' hm'
          rw [Option.some_inj] at hm'
          rw [← hm']
          -- `promoteVP` lands on a tip because `validPrev` is covered
          have hvpne : vp ≠ b := by
            rintro rfl
            rw [hfb] at hvpf
            exact Bool.noConfusion hvpf
          have hvpdone : vp ∈ done := hancdone vp hvpne hvpanc
          obtain ⟨u, hu, hvu⟩ := hcov vp hvpdone hvpf
          exact promoteVP_covered hwf (fun x hx => (hlive x hx).1)
            (fun x hx => hx) ⟨u, hu, hvu⟩
        · subst h1
          refine ⟨⟨hg', fun m' hm' => hin m' hm', fun x hx hxf => hcovmem x hx hxf⟩, ?_⟩
          rw [hm]
          exact Option.noConfusion
      · -- valid block
        have hfb' : failedOf st b = false := by simpa using hfb
        have hvb : b = vp := (hvpvalid hfb').symm
        subst hvb
        rcases hscan0 : scanTips st b (!failedOf st b) [] s.tips b s.mainTip false false false
          with _ | ⟨kept, vp', main', modified, already, modifying⟩
        · -- earlyFalse: the block is covered by a tip
          rw [hscan0] at h
          dsimp only at h
          rw [Option.some_inj, Prod.mk.injEq] at h
          obtain ⟨h1, -⟩ := h
          subst h1
          obtain ⟨-, u, hu, hbu⟩ := scanTips_earlyFalse hscan0
          refine ⟨⟨hg', hin, ?_⟩, ?_⟩
          · intro x hx hxf
            rcases List.mem_append.1 hx with hx | hx
            · exact hcov x hx hxf
            · rw [List.mem_singleton] at hx
              subst hx
              exact ⟨u, hu, hbu⟩
          · intro hmn
            rw [hnone hmn] at hu
            exact absurd hu (List.not_mem_nil u)
        · have hnocover : ∀ u ∈ s.tips, ¬ anc st b u := by
            intro u hu hanc
            have hv : (!failedOf st b) = true := by simp [hfb']
            rw [hv, scanTips_covered_earlyFalse ⟨u, hu, hanc⟩] at hscan0
            exact ScanResult.noConfusion hscan0
          obtain ⟨alr, hscan⟩ :=
            @scanTips_no_elim st b (!failedOf st b) s.tips [] b s.mainTip
              false false false hnocover
          rw [hscan0, List.nil_append, promoteVP_id (fun u hu => hnocover u hu)] at hscan
          simp only [ScanResult.done.injEq] at hscan
          obtain ⟨rfl, h2, rfl, rfl, h5, rfl⟩ := hscan
          rw [hscan0] at h
          dsimp only at h
          rw [h2] at h
          simp only [hfb', Bool.not_false, Bool.false_and, Bool.and_false,
            Bool.false_eq_true, if_false, if_true] at h
          have hcovgrow : ∀ x ∈ done ++ [b], failedOf st x = false →
              ∃ u ∈ s.tips ++ [b], anc st x u := by
            intro x hx hxf
            rcases List.mem_append.1 hx with hx | hx
            · obtain ⟨u, hu, hxu⟩ := hcov x hx hxf
              exact ⟨u, List.mem_append_left _ hu, hxu⟩
            · rw [List.mem_singleton] at hx
              rw [hx]
              exact ⟨b, List.mem_append_right _ (by simp), anc_refl st b⟩
          rcases hm0 : s.mainTip with _ | m
          · rw [hm0] at h
            dsimp only at h
            rw [Option.some_inj, Prod.mk.injEq] at h
            obtain ⟨h1, -⟩ := h
            subst h1
            refine ⟨⟨hg', ?_, fun x hx hxf => hcovgrow x hx hxf⟩, by exact Option.noConfusion⟩
            intro m' hm'
            rw [Option.some_inj] at hm'
            rw [← hm']
            exact List.mem_append_right _ (by simp)
          · rw [hm0] at h
            dsimp only at h
            obtain ⟨m1, hm1, hcase⟩ := finalCheck_cases h
            rw [Option.some_inj] at hm1
            subst hm1
            rcases hcase with ⟨hwlt, h1, -⟩ | ⟨hwge, h1, -⟩
            · subst h1
              refine ⟨⟨hg', ?_, fun x hx hxf => hcovgrow x hx hxf⟩,
                by exact Option.noConfusion⟩
              intro m' hm'
              rw [Option.some_inj] at hm'
              rw [← hm']
              exact List.mem_append_right _ (by simp)
            · subst h1
              refine ⟨⟨hg', ?_, fun x hx hxf => hcovgrow x hx hxf⟩,
                by exact Option.noConfusion⟩
              intro m' hm'
              rw [Option.some_inj] at hm'
              rw [← hm']
              exact List.mem_append_left _ (hin m hm0)
    · -- extension path
      rw [hext] at h
      dsimp only at h
      obtain ⟨hsub, htb, -⟩ := extFind_some hext
      have htmem : t ∈ s.tips := by rw [hsub]; simp
      obtain ⟨htlt, htf⟩ := hlive t htmem
      have htvp : anc st t vp := hvpdom t htlt htf htb
      have hcovext : ∀ x ∈ done ++ [b], failedOf st x = false →
          ∃ u ∈ pre ++ post ++ [vp], anc st x u := by
        intro x hx hxf
        rcases List.mem_append.1 hx with hx | hx
        · obtain ⟨u, hu, hxu⟩ := hcov x hx hxf
          rw [hsub] at hu
          rcases List.mem_append.1 hu with hu | hu
          · exact ⟨u, List.mem_append_left _ (List.mem_append_left _ hu), hxu⟩
          · rcases List.mem_cons.1 hu with rfl | hu
            · exact ⟨vp, List.mem_append_right _ (by simp),
                anc_trans hwf hvplt hxu htvp⟩
            · exact ⟨u, List.mem_append_left _ (List.mem_append_right _ hu), hxu⟩
        · rw [List.mem_singleton] at hx
          rw [hx] at hxf ⊢
          have hvb : vp = b := hvpvalid hxf
          exact ⟨vp, List.mem_append_right _ (by simp), by rw [hvb]; exact anc_refl st b⟩
      by_cases hmt : s.mainTip = some t
      · rw [if_pos hmt] at h
        rw [Option.some_inj, Prod.mk.injEq] at h
        obtain ⟨h1, -⟩ := h
        subst h1
        refine ⟨⟨hg', ?_, fun x hx hxf => hcovext x hx hxf⟩, by exact Option.noConfusion⟩
        intro m' hm'
        rw [Option.some_inj] at hm'
        rw [← hm']
        exact List.mem_append_right _ (by simp)
      · rw [if_neg hmt] at h
        obtain ⟨m, hm, hcase⟩ := finalCheck_cases h
        dsimp only at hm
        rcases hcase with ⟨hwlt, h1, -⟩ | ⟨hwge, h1, -⟩
        · subst h1
          refine ⟨⟨hg', ?_, fun x hx hxf => hcovext x hx hxf⟩, by exact Option.noConfusion⟩
          intro m' hm'
          rw [Option.some_inj] at hm'
          rw [← hm']
          exact List.mem_append_right _ (by simp)
        · subst h1
          refine ⟨⟨hg', ?_, fun x hx hxf => hcovext x hx hxf⟩, ?_⟩
          · intro m' hm'
            dsimp only at hm'
            rw [hm, Option.some_inj] at hm'
            rw [← hm']
            have hmold : m ∈ s.tips := hin m hm
            rw [hsub] at hmold
            rcases List.mem_append.1 hmold with hmo | hmo
            · exact List.mem_append_left _ (List.mem_append_left _ hmo)
            · rcases List.mem_cons.1 hmo with rfl | hmo
              · exact absurd hm hmt
              · exact List.mem_append_left _ (List.mem_append_right _ hmo)
          · dsimp only
            rw [hm]
            exact Option.noConfusion

/-- The main tip only ever moves to a record of strictly greater chain work;
in particular a candidate of merely equal work leaves it unchanged. -/
theorem appendHeader_tiebreak {st : Store} {s s' : ChainState} {b : Nat} {r : Bool}
    (hwf : WF st) (hg : Good st s) (hb : b < st.length)
    (h : appendHeader st s b = some (s', r)) :
    ∀ m m', s.mainTip = some m → s'.mainTip = some m' → m' ≠ m →
      workOf st m < workOf st m' := by
  obtain ⟨⟨hlive, hpw⟩, hnone, hmain⟩ := hg
  intro m m' hm hm' hne
  rw [appendHeader] at h
  by_cases hcont : (!failedOf st b && chainContains st s.mainTip b) = true
  · rw [if_pos hcont] at h
    rw [Option.some_inj, Prod.mk.injEq] at h
    obtain ⟨h1, -⟩ := h
    rw [← h1] at hm'
    rw [hm] at hm'
    rw [Option.some_inj] at hm'
    exact absurd hm'.symm hne
  · rw [if_neg hcont] at h
    rcases hstart : (if !failedOf st b then some b else prevOf st b) with _ | start
    · rw [hstart] at h; exact Option.noConfusion h
    rw [hstart] at h
    dsimp only at h
    rcases hvp0 : walkValidPrev st start with _ | vp
    · rw [hvp0] at h; exact Option.noConfusion h
    rw [hvp0] at h
    dsimp only at h
    obtain ⟨hvplt, hvpf, hvpanc, hvpdom, hvpvalid⟩ := vp_of_walk hwf hb hstart hvp0
    rcases hext : extFind st b s.tips with _ | ⟨pre, t, post⟩
    · -- scan path
      rw [hext] at h
      dsimp only at h
      by_cases hfb : failedOf st b = true
      · have hnotips : ∀ u ∈ s.tips, ¬ anc st b u := no_tip_contains_failed hwf hlive hfb
        obtain ⟨alr, hscan⟩ :=
          @scanTips_no_elim st b (!failedOf st b) s.tips [] vp s.mainTip
            false false false hnotips
        rw [hscan] at h
        dsimp only at h
        simp only [hfb, Bool.not_true, Bool.false_and, Bool.false_eq_true, if_false,
          List.nil_append] at h
        obtain ⟨m0, hm0, hcase⟩ := finalCheck_cases h
        dsimp only at hm0
        rw [hm] at hm0
        rw [Option.some_inj] at hm0
        subst hm0
        rcases hcase with ⟨hwlt, h1, -⟩ | ⟨hwge, h1, -⟩
        · rw [h1] at hm'
          dsimp only at hm'
          rw [Option.some_inj] at hm'
          rw [← hm']
          exact hwlt
        · rw [h1] at hm'
          dsimp only at hm'
          rw [hm] at hm'
          rw [Option.some_inj] at hm'
          exact absurd hm'.symm hne
      · have hfb' : failedOf st b = false := by simpa using hfb
        have hvb : b = vp := (hvpvalid hfb').symm
        subst hvb
        rcases hscan0 : scanTips st b (!failedOf st b) [] s.tips b s.mainTip false false false
          with _ | ⟨kept, vp', main', modified, already, modifying⟩
        · rw [hscan0] at h
          dsimp only at h
          rw [Option.some_inj, Prod.mk.injEq] at h
          obtain ⟨h1, -⟩ := h
          rw [← h1] at hm'
          rw [hm] at hm'
          rw [Option.some_inj] at hm'
          exact absurd hm'.symm hne
        · have hnocover : ∀ u ∈ s.tips, ¬ anc st b u := by
            intro u hu hanc
            have hv : (!failedOf st b) = true := by simp [hfb']
            rw [hv, scanTips_covered_earlyFalse ⟨u, hu, hanc⟩] at hscan0
            exact ScanResult.noConfusion hscan0
          obtain ⟨alr, hscan⟩ :=
            @scanTips_no_elim st b (!failedOf st b) s.tips [] b s.mainTip
              false false false hnocover
          rw [hscan0, List.nil_append, promoteVP_id (fun u hu => hnocover u hu)] at hscan
          simp only [ScanResult.done.injEq] at hscan
          obtain ⟨rfl, h2, rfl, rfl, h5, rfl⟩ := hscan
          rw [hscan0] at h
          dsimp only at h
          rw [h2] at h
          simp only [hfb', Bool.not_false, Bool.false_and, Bool.and_false,
            Bool.false_eq_true, if_false, if_true] at h
          rw [hm] at h
          dsimp only at h
          obtain ⟨m1, hm1, hcase⟩ := finalCheck_cases h
          rw [Option.some_inj] at hm1
          subst hm1
          rcases hcase with ⟨hwlt, h1, -⟩ | ⟨hwge, h1, -⟩
          · rw [h1] at hm'
            dsimp only at hm'
            rw [Option.some_inj] at hm'
            rw [← hm']
            exact hwlt
          · rw [h1] at hm'
            dsimp only at hm'
            rw [Option.some_inj] at hm'
            exact absurd hm'.symm hne
    · -- extension path
      rw [hext] at h
      dsimp only at h
      obtain ⟨hsub, htb, -⟩ := extFind_some hext
      have htmem : t ∈ s.tips := by rw [hsub]; simp
      obtain ⟨htlt, htf⟩ := hlive t htmem
      have htvp : anc st t vp := hvpdom t htlt htf htb
      by_cases hmt : s.mainTip = some t
      · rw [if_pos hmt] at h
        rw [Option.some_inj, Prod.mk.injEq] at h
        obtain ⟨h1, -⟩ := h
        rw [← h1] at hm'
        dsimp only at hm'
        rw [Option.some_inj] at hm'
        rw [hmt] at hm
        rw [Option.some_inj] at hm
        rw [← hm, ← hm']
        refine anc_work_lt hwf hvplt htvp ?_
        rw [← hm, ← hm'] at hne
        exact fun hc => hne (hc.symm)
      · rw [if_neg hmt] at h
        obtain ⟨m0, hm0, hcase⟩ := finalCheck_cases h
        dsimp only at hm0
        rw [hm] at hm0
        rw [Option.some_inj] at hm0
        subst hm0
        rcases hcase with ⟨hwlt, h1, -⟩ | ⟨hwge, h1, -⟩
        · rw [h1] at hm'
          dsimp only at hm'
          rw [Option.some_inj] at hm'
          rw [← hm']
          exact hwlt
        · rw [h1] at hm'
          dsimp only at hm'
          rw [hm] at hm'
          rw [Option.some_inj] at hm'
          exact absurd hm'.symm hne

/-! ### Parents-first sequences -/

/-- Every proper ancestor of the `k`-th appended record was appended earlier
(either in `done` or before position `k`). -/
def ParentsFirst (st : Store) (done ids : List Nat) : Prop :=
  ∀ k ∈ List.range ids.length, ∀ j ∈ List.range st.length, j ≠ ids.getD k 0 →
    anc st j (ids.getD k 0) → j ∈ done ++ ids.take k

instance (st : Store) (done ids : List Nat) : Decidable (ParentsFirst st done ids) := by
  unfold ParentsFirst; infer_instance

theorem parentsFirst_cons {st : Store} {done : List Nat} {b : Nat} {bs : List Nat}
    (h : ParentsFirst st done (b :: bs)) :
    (∀ j, j < st.length → j ≠ b → anc st j b → j ∈ done) ∧
      ParentsFirst st (done ++ [b]) bs := by
  constructor
  · intro j hj hne hanc
    have h0 := h 0 (by simp) j (List.mem_range.2 hj) (by simpa using hne) (by simpa using hanc)
    simpa using h0
  · intro k hk j hj hne hanc
    rw [List.mem_range] at hk
    have hk' : k + 1 ∈ List.range (b :: bs).length := by
      rw [List.mem_range]
      simp
      omega
    have hget : (b :: bs).getD (k + 1) 0 = bs.getD k 0 := rfl
    have hstep := h (k + 1) hk' j hj (by rw [hget]; exact hne) (by rw [hget]; exact hanc)
    rw [List.take_succ_cons] at hstep
    rcases List.mem_append.1 hstep with hmem | hmem
    · exact List.mem_append_left _ (List.mem_append_left _ hmem)
    · rcases List.mem_cons.1 hmem with rfl | hmem
      · exact List.mem_append_left _ (List.mem_append_right _ (by simp))
      · exact List.mem_append_right _ hmem

theorem runAppend_nil {st : Store} {s : ChainState} : runAppend st s [] = some s := rfl

theorem runAppend_append {st : Store} :
    ∀ {l₁ l₂ : List Nat} {s₀ : ChainState},
      runAppend st s₀ (l₁ ++ l₂) =
        (runAppend st s₀ l₁).bind (fun s₁ => runAppend st s₁ l₂) := by
  intro l₁
  induction l₁ with
  | nil =>
      intro l₂ s₀
      rw [List.nil_append, runAppend_nil, Option.some_bind]
  | cons b bs ih =>
      intro l₂ s₀
      rw [List.cons_append, runAppend]
      conv_rhs => rw [runAppend]
      rcases ha : appendHeader st s₀ b with _ | ⟨s₁, r⟩
      · rfl
      · dsimp only
        exact ih

/-- Folding `appendHeader` along a parents-first sequence keeps the claim-P3
invariant, and guarantees a main tip once anything was appended. -/
theorem runAppend_invC1 {st : Store} (hwf : WF st) :
    ∀ {ids done : List Nat} {s₀ s : ChainState},
      InvC1 st done s₀ → (∀ i ∈ ids, i < st.length) →
      ParentsFirst st done ids →
      runAppend st s₀ ids = some s →
      InvC1 st (done ++ ids) s ∧ (ids ≠ [] → s.mainTip ≠ none) := by
  intro ids
  induction ids with
  | nil =>
      intro done s₀ s hinv _ _ hrun
      rw [runAppend_nil, Option.some_inj] at hrun
      rw [← hrun, List.append_nil]
      exact ⟨hinv, fun hc => absurd rfl hc⟩
  | cons b bs ih =>
      intro done s₀ s hinv hids hpf hrun
      rw [runAppend] at hrun
      rcases ha : appendHeader st s₀ b with _ | ⟨s₁, r⟩
      · rw [ha] at hrun; exact Option.noConfusion hrun
      rw [ha] at hrun
      dsimp only at hrun
      obtain ⟨hanc, hpf'⟩ := parentsFirst_cons hpf
      have hblt : b < st.length := hids b (by simp)
      obtain ⟨hinv₁, hm₁⟩ := appendHeader_invC1 hwf hinv hblt
        (fun j hne hancj => hanc j (anc_lt_length hwf hblt hancj) hne hancj) ha
      obtain ⟨hinv₂, hmtail⟩ :=
        ih hinv₁ (fun i hi => hids i (List.mem_cons_of_mem b hi)) hpf' hrun
      constructor
      · have heq : (done ++ [b]) ++ bs = done ++ b :: bs := by
          rw [List.append_assoc, List.singleton_append]
        rw [← heq]
        exact hinv₂
      · intro _
        by_cases hbs : bs = []
        · subst hbs
          rw [runAppend_nil, Option.some_inj] at hrun
          rw [← hrun]
          exact hm₁
        · exact hmtail hbs

/-- `InvC1` holds of the empty state with nothing appended. -/
theorem invC1_empty (st : Store) : InvC1 st [] emptyChain := by
  refine ⟨good_empty st, ?_, ?_⟩
  · intro m hm
    exact absurd hm (by simp [emptyChain])
  · intro x hx
    exact absurd hx (List.not_mem_nil x)

/-! ### Claims C1 and C2 -/

/-- **C1 (counterexample).**  The claim "after every sequence of
`appendHeader` calls from the empty state, `mainTip` is one of the entries in
`tips`" fails on the code: appending genesis `0`, a light child `1`, and then
the failed record `3` (whose non-failed parent `2` was never appended) moves
the `headersChain` tip to `2`, which is not a tip.  The store is well-formed
(all spec data-model invariants hold). -/
theorem C1_counterexample :
    WF cex1Store ∧ (∀ i ∈ [0, 1, 3], i < cex1Store.length) ∧
      runAppend cex1Store emptyChain [0, 1, 3] = some ⟨[1], some 2⟩ ∧
      ¬ (2 ∈ [1]) := by decide

/-- **C1 (amended).**  For every parents-first sequence of `appendHeader`
calls starting from the empty ChainSet state over a well-formed store (each
record's proper ancestors appended before it), after the calls the main tip
exists, is one of the entries in `tips`, and has maximal `chainWork` among
the non-failed appended records; and the main tip only ever moves to a
record of strictly greater work (equal work keeps the incumbent). -/
theorem C1_mainTip_maximal_parentsFirst
    (st : Store) (ids : List Nat) (s : ChainState)
    (hwf : WF st) (hids : ∀ i ∈ ids, i < st.length)
    (hpf : ParentsFirst st [] ids) (hne : ids ≠ [])
    (hrun : runAppend st emptyChain ids = some s) :
    (∃ m, s.mainTip = some m ∧ m ∈ s.tips ∧
      ∀ i ∈ ids, failedOf st i = false → workOf st i ≤ workOf st m) ∧
    (∀ ids₀ b s₀ m₀ m₁, ids = ids₀ ++ [b] →
      runAppend st emptyChain ids₀ = some s₀ →
      s₀.mainTip = some m₀ → s.mainTip = some m₁ → m₁ ≠ m₀ →
      workOf st m₀ < workOf st m₁) := by
  obtain ⟨⟨hgood, hin, hcov⟩, hmne⟩ := runAppend_invC1 hwf (invC1_empty st) hids hpf hrun
  constructor
  · rcases hms : s.mainTip with _ | m
    · exact absurd hms (hmne hne)
    · refine ⟨m, rfl, hin m hms, ?_⟩
      intro i hi hif
      obtain ⟨u, hu, hiu⟩ := hcov i (by simpa using hi) hif
      obtain ⟨hmlt, hmf, hmbound⟩ := hgood.2.2 m hms
      have hult : u < st.length := (hgood.1.1 u hu).1
      exact le_trans (anc_work_le hwf hult hiu) (hmbound u hu)
  · intro ids₀ b s₀ m₀ m₁ heq hrun₀ hm₀ hm₁ hne'
    subst heq
    rw [runAppend_append, hrun₀, Option.some_bind] at hrun
    rw [runAppend] at hrun
    rcases ha : appendHeader st s₀ b with _ | ⟨s₂, r⟩
    · rw [ha] at hrun; exact Option.noConfusion hrun
    rw [ha] at hrun
    dsimp only at hrun
    rw [runAppend_nil, Option.some_inj] at hrun
    subst hrun
    have hg₀ : Good st s₀ :=
      runAppend_good hwf (fun i hi => hids i (List.mem_append_left _ hi)) hrun₀
    exact appendHeader_tiebreak hwf hg₀
      (hids b (List.mem_append_right _ (by simp))) ha m₀ m₁ hm₀ hm₁ hne'

/-- **C1 (witness).**  The amended claim applied to the spec's reorg
scenario: genesis 0, then 1 and 2 (equal-work siblings of height 1), then 3
(child of 2, work 3).  The main tip ends at 3 ∈ tips with maximal work. -/
theorem C1_mainTip_maximal_parentsFirst_witness :
    (WF scenarioStore ∧ (∀ i ∈ [0, 1, 2, 3], i < scenarioStore.length) ∧
      ParentsFirst scenarioStore [] [0, 1, 2, 3] ∧ ([0, 1, 2, 3] : List Nat) ≠ [] ∧
      runAppend scenarioStore emptyChain [0, 1, 2, 3] = some ⟨[1, 3], some 3⟩) ∧
    ((∃ m, (ChainState.mk [1, 3] (some 3)).mainTip = some m ∧ m ∈ [1, 3] ∧
      ∀ i ∈ [0, 1, 2, 3], failedOf scenarioStore i = false →
        workOf scenarioStore i ≤ workOf scenarioStore m) ∧
    (∀ ids₀ b s₀ m₀ m₁, ([0, 1, 2, 3] : List Nat) = ids₀ ++ [b] →
      runAppend scenarioStore emptyChain ids₀ = some s₀ →
      s₀.mainTip = some m₀ → (ChainState.mk [1, 3] (some 3)).mainTip = some m₁ →
      m₁ ≠ m₀ → workOf scenarioStore m₀ < workOf scenarioStore m₁)) :=
  ⟨⟨by decide, by decide, by decide, by decide, by decide⟩,
    C1_mainTip_maximal_parentsFirst scenarioStore [0, 1, 2, 3] ⟨[1, 3], some 3⟩
      (by decide) (by decide) (by decide) (by decide) (by decide)⟩

/-- **C2 (counterexample).**  The claim quantifies over *every* ChainSet
state; on the (well-formed) chain `0 → 1 → 2 → 3` with a heavy sibling `4`,
and the state whose tips are `[1, 2, 4]` (nested tips) with main tip `4`,
appending record `3` twice gives `[4, 3, 3]`, while appending it once gives
`[2, 4, 3]`: the second call changes the state again. -/
theorem C2_counterexample :
    WF cex2Store ∧
      appendHeader cex2Store ⟨[1, 2, 4], some 4⟩ 3 =
        some (⟨[2, 4, 3], some 4⟩, false) ∧
      appendHeader cex2Store ⟨[2, 4, 3], some 4⟩ 3 =
        some (⟨[4, 3, 3], some 4⟩, false) ∧
      (ChainState.mk [4, 3, 3] (some 4)) ≠ ⟨[2, 4, 3], some 4⟩ := by decide

/-- **C2 (amended).**  On every state reachable by `appendHeader` calls from
the empty ChainSet state over a well-formed store, `appendHeader(r)` applied
twice is equivalent to once: the second call leaves `tips` and `mainTip`
exactly as the first left them, and when `r` is valid the second call
returns `false` (the record is already known on a chain). -/
theorem C2_appendHeader_idempotent_reachable
    (st : Store) (ids : List Nat) (s s₁ : ChainState) (b : Nat) (r₁ : Bool)
    (hwf : WF st) (hids : ∀ i ∈ ids, i < st.length)
    (hreach : runAppend st emptyChain ids = some s)
    (hb : b < st.length)
    (h₁ : appendHeader st s b = some (s₁, r₁)) :
    ∃ r₂, appendHeader st s₁ b = some (s₁, r₂) ∧
      (failedOf st b = false → r₂ = false) :=
  appendHeader_idem hwf (runAppend_good hwf hids hreach) hb h₁

/-- **C2 (witness).**  The amended claim at the reorg scenario: re-appending
the equal-work sibling `2` to the reachable state `⟨[1], some 1⟩` is a
no-op the second time. -/
theorem C2_appendHeader_idempotent_reachable_witness :
    (WF scenarioStore ∧ (∀ i ∈ [0, 1], i < scenarioStore.length) ∧
      runAppend scenarioStore emptyChain [0, 1] = some ⟨[1], some 1⟩ ∧
      2 < scenarioStore.length ∧
      appendHeader scenarioStore ⟨[1], some 1⟩ 2 = some (⟨[1, 2], some 1⟩, false)) ∧
    (∃ r₂, appendHeader scenarioStore ⟨[1, 2], some 1⟩ 2 =
        some (⟨[1, 2], some 1⟩, r₂) ∧
      (failedOf scenarioStore 2 = false → r₂ = false)) :=
  ⟨⟨by decide, by decide, by decide, by decide, by decide⟩,
    C2_appendHeader_idempotent_reachable scenarioStore [0, 1] ⟨[1], some 1⟩
      ⟨[1, 2], some 1⟩ 2 false (by decide) (by decide) (by decide) (by decide) (by decide)⟩

/-! ### The raw block file store (`Blocks::DBPrivate::writeBlock` / `loadBlock`) -/

/-- Modelled from the spec: `MAX_BLOCKFILE_SIZE` = 128 MiB (the constant lives
in `chain.h`, which is not among the sources). -/
def MAX_BLOCKFILE_SIZE : Nat := 134217728

/-- Modelled from the spec: `BLOCKFILE_CHUNK_SIZE` = 16 MiB. -/
def BLOCKFILE_CHUNK_SIZE : Nat := 16777216

/-- Modelled from the spec: `UNDOFILE_CHUNK_SIZE` = 1 MiB. -/
def UNDOFILE_CHUNK_SIZE : Nat := 1048576

/-- `htole32`: the four little-endian bytes of a 32-bit value. -/
def le32 (n : Nat) : List Nat :=
  [n % 256, n / 256 % 256, n / 65536 % 256, n / 16777216 % 256]

/-- `le32toh(*(uint32_t*)p)`: decode four little-endian bytes. -/
def dec32 (l : List Nat) : Nat :=
  l.getD 0 0 + 256 * l.getD 1 0 + 65536 * l.getD 2 0 + 16777216 * l.getD 3 0

theorem le32_length (n : Nat) : (le32 n).length = 4 := rfl

theorem dec32_le32 {n : Nat} (h : n < 4294967296) : dec32 (le32 n) = n := by
  simp only [le32, dec32, List.getD]
  simp only [List.get?]
  norm_num
  omega

/-- Read `n` bytes of a mapped file starting at `off`. -/
def extract (f : List Nat) (off n : Nat) : List Nat := (f.drop off).take n

/-- `memcpy` of `d` into the mapped file at offset `off`. -/
def overlay (f : List Nat) (off : Nat) (d : List Nat) : List Nat :=
  f.take off ++ d ++ f.drop (off + d.length)

theorem overlay_length {f d : List Nat} {off : Nat} (h : off + d.length ≤ f.length) :
    (overlay f off d).length = f.length := by
  rw [overlay]
  simp only [List.length_append, List.length_take, List.length_drop]
  omega

/-- Reading back a middle segment of a written frame. -/
theorem extract_overlay {f d : List Nat} {off a n : Nat}
    (han : a + n ≤ d.length) (hfit : off + d.length ≤ f.length) :
    extract (overlay f off d) (off + a) n = (d.drop a).take n := by
  have hto : (f.take off).length = off := by
    rw [List.length_take]
    omega
  rw [extract, overlay, List.append_assoc, List.drop_append_eq_append_drop, hto]
  rw [List.drop_eq_nil_of_le (by omega : (f.take off).length ≤ off + a)]
  rw [List.nil_append, show off + a - off = a by omega,
    List.drop_append_eq_append_drop, List.take_append_eq_append_take]
  rw [List.length_drop]
  rw [show a - d.length = 0 by omega, List.drop_zero]
  rw [show n - (d.length - a) = 0 by omega, List.take_zero, List.append_nil]

/-- One segment of a three-part frame is read back exactly. -/
theorem extract_overlay_piece {f : List Nat} {off : Nat} {l₁ l₂ l₃ : List Nat}
    (hfit : off + (l₁ ++ l₂ ++ l₃).length ≤ f.length) :
    extract (overlay f off (l₁ ++ l₂ ++ l₃)) (off + l₁.length) l₂.length = l₂ := by
  have h1 : l₁.length + l₂.length ≤ (l₁ ++ l₂ ++ l₃).length := by
    simp [List.length_append]
  rw [extract_overlay h1 hfit, List.append_assoc, List.drop_left, List.take_left]

/-- The `while (*posInFile + blockSize + 8 + extra >= fileSize)` growth loop:
extend the file by `chunk` zero bytes until `target` is strictly inside. -/
def growLoopFuel (target chunk : Nat) : Nat → List Nat → List Nat
  | 0, f => f
  | fuel + 1, f =>
      if target ≥ f.length then growLoopFuel target chunk fuel (f ++ List.replicate chunk 0)
      else f

def growFile (target chunk : Nat) (f : List Nat) : List Nat :=
  growLoopFuel target chunk (target + 1) f

theorem growLoopFuel_prefix {target chunk : Nat} :
    ∀ {fuel : Nat} {f : List Nat}, ∃ k, growLoopFuel target chunk fuel f =
      f ++ List.replicate k 0 := by
  intro fuel
  induction fuel with
  | zero => intro f; exact ⟨0, by rw [growLoopFuel]; simp⟩
  | succ fuel ih =>
      intro f
      rw [growLoopFuel]
      by_cases hc : target ≥ f.length
      · rw [if_pos hc]
        obtain ⟨k, hk⟩ := @ih (f ++ List.replicate chunk 0)
        exact ⟨chunk + k, by rw [hk, List.append_assoc, List.replicate_add]⟩
      · rw [if_neg hc]
        exact ⟨0, by simp⟩

theorem growLoopFuel_gt {target chunk : Nat} (hchunk : 0 < chunk) :
    ∀ {fuel : Nat} {f : List Nat}, target < f.length + fuel →
      target < (growLoopFuel target chunk fuel f).length := by
  intro fuel
  induction fuel with
  | zero => intro f h; rw [growLoopFuel]; omega
  | succ fuel ih =>
      intro f h
      rw [growLoopFuel]
      by_cases hc : target ≥ f.length
      · rw [if_pos hc]
        refine ih ?_
        rw [List.length_append, List.length_replicate]
        omega
      · rw [if_neg hc]
        omega

theorem growFile_prefix {target chunk : Nat} {f : List Nat} :
    ∃ k, growFile target chunk f = f ++ List.replicate k 0 :=
  growLoopFuel_prefix

theorem growFile_gt {target chunk : Nat} (hchunk : 0 < chunk) (f : List Nat) :
    target < (growFile target chunk f).length :=
  growLoopFuel_gt hchunk (by omega)

/-- `CBlockFileInfo` (the fields the write path touches). -/
structure CBlockFileInfo where
  nBlocks : Nat := 0
  nSize : Nat := 0
  nUndoSize : Nat := 0
deriving DecidableEq, Repr

/-- `std::vector::resize`: truncate or pad with `d` to length exactly `n`. -/
def resizeList {α : Type} (l : List α) (n : Nat) (d : α) : List α :=
  l.take n ++ List.replicate (n - l.length) d

theorem resizeList_length {α : Type} (l : List α) (n : Nat) (d : α) :
    (resizeList l n d).length = n := by
  rw [resizeList, List.length_append, List.length_take, List.length_replicate]
  omega

/-- The mutable write-path state of `Blocks::DBPrivate`: the `vinfoBlockFile`
vector, `nLastBlockFile`, and the on-disk contents of the blk and rev files
(`none` = the file does not exist / is pruned away). -/
structure WriterState where
  vinfoBlockFile : List CBlockFileInfo
  nLastBlockFile : Nat
  blkFiles : List (Option (List Nat))
  revFiles : List (Option (List Nat))
deriving DecidableEq, Repr

/-- Look a data file up by index (`mapFile`'s view of the disk). -/
def getFileAt (files : List (Option (List Nat))) (i : Nat) : Option (List Nat) :=
  files.getD i none

/-- Create or replace the data file at index `i`. -/
def setFileAt (files : List (Option (List Nat))) (i : Nat) (c : List Nat) :
    List (Option (List Nat)) :=
  (resizeList files (max files.length (i + 1)) none).set i (some c)

theorem getFileAt_setFileAt (files : List (Option (List Nat))) (i : Nat) (c : List Nat) :
    getFileAt (setFileAt files i c) i = some c := by
  rw [getFileAt, setFileAt]
  rw [List.getD_eq_get?, List.get?_set_eq_of_lt]
  · rfl
  · rw [resizeList_length]
    omega

/-- The result of `Blocks::DBPrivate::writeBlock`: the new state, the
position (`pos.nFile`, `pos.nPos`), the returned buffer view, and whether a
new file was started. -/
structure WriteResult where
  state : WriterState
  posFile : Nat
  posPos : Nat
  payloadOut : List Nat
  newFile : Bool
deriving DecidableEq, Repr

/-- `Blocks::DBPrivate::writeBlock(block, pos, type, blockHash)`, non-Windows
path.  `useBlk` is `type == ForwardBlock`; `posFileIn` is the incoming
`pos.nFile` (only consulted for revert files); `magic` is the network's
`MessageStart`; `hashFn` abstracts the double-SHA256 of `CHashWriter`
(`hash.h` is not among the sources).  `none` models the assertion on the
block size and the throws on a failed mapping. -/
def writeDecision (w : WriterState) (blockSize posFileIn : Nat) (useBlk : Bool) :
    Bool × Nat × List CBlockFileInfo :=
  if w.vinfoBlockFile.length ≤ w.nLastBlockFile then
    (true, w.nLastBlockFile, resizeList w.vinfoBlockFile (w.nLastBlockFile + 1) {})
  else if useBlk ∧
      (w.vinfoBlockFile.getD w.nLastBlockFile {}).nSize + blockSize + 8 >
        MAX_BLOCKFILE_SIZE then
    (true, w.nLastBlockFile + 1, resizeList w.vinfoBlockFile (w.nLastBlockFile + 2) {})
  else if ¬ useBlk ∧ w.nLastBlockFile < posFileIn then
    (true, max (w.nLastBlockFile + 1) posFileIn,
      resizeList w.vinfoBlockFile (max (w.nLastBlockFile + 1) posFileIn + 1) {})
  else (false, w.nLastBlockFile, w.vinfoBlockFile)

/-- "create new file on disk": truncate/create the file at its initial size. -/
def writeFiles1 (files0 : List (Option (List Nat))) (posFile blockSize chunk : Nat)
    (create : Bool) : List (Option (List Nat)) :=
  if create then setFileAt files0 posFile (List.replicate (max (blockSize + 8) chunk) 0)
  else files0

/-- `Blocks::DBPrivate::writeBlock(block, pos, type, blockHash)`, non-Windows
path.  `useBlk` is `type == ForwardBlock`; `posFileIn` is the incoming
`pos.nFile` (only consulted for revert files); `magic` is the network's
`MessageStart`; `hashFn` abstracts the double-SHA256 of `CHashWriter`
(`hash.h` is not among the sources).  `none` models the assertion on the
block size and the throws on a failed mapping. -/
def writeBlock (magic : List Nat) (hashFn : List Nat → List Nat)
    (w : WriterState) (block : List Nat) (posFileIn : Nat) (useBlk : Bool)
    (blockHash : List Nat) : Option WriteResult :=
  if block.length + 8 ≥ MAX_BLOCKFILE_SIZE then none
  else
    let newFile := (writeDecision w block.length posFileIn useBlk).1
    let nLast := (writeDecision w block.length posFileIn useBlk).2.1
    let vinfo := (writeDecision w block.length posFileIn useBlk).2.2
    let posFile := if useBlk then nLast else posFileIn
    let info := vinfo.getD posFile {}
    let chunk := if useBlk then BLOCKFILE_CHUNK_SIZE else UNDOFILE_CHUNK_SIZE
    let files1 := writeFiles1 (if useBlk then w.blkFiles else w.revFiles) posFile
      block.length chunk (newFile || (!useBlk && info.nUndoSize == 0))
    match getFileAt files1 posFile with
    | none => none
    | some f0 =>
        let posInFile := if useBlk then info.nSize else info.nUndoSize
        let f1 := growFile (posInFile + block.length + 8 + (if useBlk then 0 else 32))
          chunk f0
        let frame := magic ++ le32 block.length ++ block ++
          (if useBlk then [] else hashFn (blockHash ++ block))
        let f2 := overlay f1 posInFile frame
        let info2 :=
          if useBlk then
            { info with nBlocks := info.nBlocks + 1,
                        nSize := posInFile + block.length + 8 }
          else { info with nUndoSize := posInFile + 32 + block.length + 8 }
        let files2 := setFileAt files1 posFile f2
        some
          { state :=
              { vinfoBlockFile := vinfo.set posFile info2,
                nLastBlockFile := nLast,
                blkFiles := if useBlk then files2 else w.blkFiles,
                revFiles := if useBlk then w.revFiles else files2 },
            posFile := posFile,
            posPos := posInFile + 8,
            payloadOut := extract f2 (posInFile + 8) block.length,
            newFile := newFile }

/-- The distinct `throw std::runtime_error` sites of
`Blocks::DBPrivate::loadBlock`, plus the failed-`mapFile` one. -/
inductive LoadError where
  | posTooSmall
  | mmapFailed
  | posOutsideFile
  | blockTooBig
  | checksumMismatch
deriving DecidableEq, Repr

/-- `Blocks::DBPrivate::loadBlock(pos, type, blockHash)`: `useBlk` is
`type == ForwardBlock`; a `some` blockHash selects the undo (checksummed)
read. -/
def loadBlock (hashFn : List Nat → List Nat) (w : WriterState)
    (nFile nPos : Nat) (useBlk : Bool) (blockHash : Option (List Nat)) :
    Except LoadError (List Nat) :=
  if nPos < 4 then .error .posTooSmall
  else
    match getFileAt (if useBlk then w.blkFiles else w.revFiles) nFile with
    | none => .error .mmapFailed
    | some f =>
        if nPos ≥ f.length then .error .posOutsideFile
        else
          let blockSize := dec32 (extract f (nPos - 4) 4)
          if nPos + blockSize + (if blockHash.isSome then 32 else 0) > f.length then
            .error .blockTooBig
          else
            match blockHash with
            | some bh =>
                if extract f (nPos + blockSize) 32 = hashFn (bh ++ extract f nPos blockSize)
                then .ok (extract f nPos blockSize)
                else .error .checksumMismatch
            | none => .ok (extract f nPos blockSize)

/-- `Blocks::DB::loadBlockFile(fileIndex)`: an absent file yields the invalid
(empty) buffer; otherwise the buffer spans the mapping minus one byte
(`buf.get() + fileSize - 1`). -/
def loadBlockFile (w : WriterState) (fileIndex : Nat) : Option (List Nat) :=
  match getFileAt w.blkFiles fileIndex with
  | none => none
  | some f => some (f.take (f.length - 1))

deriving instance DecidableEq for Except

section WriterSanity

/-- A store state with one 20-byte blk file, nothing written yet. -/
def wSmall : WriterState :=
  ⟨[{ nBlocks := 0, nSize := 0, nUndoSize := 0 }], 0, [some (List.replicate 20 0)], []⟩

def hashZ : List Nat → List Nat := fun _ => List.replicate 32 7

example :
    writeBlock [9, 9, 9, 9] hashZ wSmall [1, 2, 3] 0 true [] =
      some { state := ⟨[{ nBlocks := 1, nSize := 11, nUndoSize := 0 }], 0,
                       [some [9, 9, 9, 9, 3, 0, 0, 0, 1, 2, 3, 0, 0, 0, 0, 0, 0, 0, 0, 0]], []⟩,
             posFile := 0, posPos := 8, payloadOut := [1, 2, 3], newFile := false } := by
  decide

example :
    loadBlock hashZ
      ⟨[{ nBlocks := 1, nSize := 11, nUndoSize := 0 }], 0,
        [some [9, 9, 9, 9, 3, 0, 0, 0, 1, 2, 3, 0, 0, 0, 0, 0, 0, 0, 0, 0]], []⟩
      0 8 true none = .ok [1, 2, 3] := by decide

end WriterSanity

/-- Reading the three variable segments back out of a written frame. -/
theorem frame_reads {f1 : List Nat} {off : Nat} {magic lenb block tail : List Nat}
    (hm : magic.length = 4) (hl : lenb.length = 4)
    (hfit : off + (magic ++ lenb ++ block ++ tail).length ≤ f1.length) :
    extract (overlay f1 off (magic ++ lenb ++ block ++ tail)) (off + 4) 4 = lenb ∧
    extract (overlay f1 off (magic ++ lenb ++ block ++ tail)) (off + 8) block.length =
      block ∧
    extract (overlay f1 off (magic ++ lenb ++ block ++ tail))
      (off + (8 + block.length)) tail.length = tail := by
  have hdlen : (magic ++ lenb ++ block ++ tail).length =
      8 + block.length + tail.length := by
    simp only [List.length_append, hm, hl]
  refine ⟨?_, ?_, ?_⟩
  · rw [extract_overlay (by omega) hfit]
    rw [show magic ++ lenb ++ block ++ tail = magic ++ (lenb ++ (block ++ tail)) by
      simp [List.append_assoc]]
    rw [List.drop_left' hm, List.take_left' hl]
  · rw [extract_overlay (by omega) hfit]
    rw [show magic ++ lenb ++ block ++ tail = (magic ++ lenb) ++ (block ++ tail) by
      simp [List.append_assoc]]
    rw [List.drop_left' (by simp only [List.length_append, hm, hl] :
      (magic ++ lenb).length = 8)]
    rw [List.take_left' rfl]
  · rw [extract_overlay (by omega) hfit]
    rw [List.drop_left' (by simp only [List.length_append, hm, hl] :
      ((magic ++ lenb) ++ block).length = 8 + block.length)]
    rw [List.take_length]

/-- `loadBlock` applied right after a frame was written at `posInFile` reads
the payload back verbatim (and verifies the trailing checksum on undo reads). -/
theorem loadBlock_of_frame (hashFn : List Nat → List Nat) (w' : WriterState)
    (useBlk : Bool) (p posInFile : Nat) (f1 magic block tail : List Nat)
    (bh? : Option (List Nat))
    (hm : magic.length = 4)
    (hfile : getFileAt (if useBlk then w'.blkFiles else w'.revFiles) p =
      some (overlay f1 posInFile (magic ++ le32 block.length ++ block ++ tail)))
    (hfit : posInFile + (8 + block.length + tail.length) < f1.length)
    (hbs : block.length < 4294967296)
    (htail : ∀ bh, bh? = some bh → tail = hashFn (bh ++ block) ∧ tail.length = 32) :
    loadBlock hashFn w' p (posInFile + 8) useBlk bh? = .ok block := by
  have hfit' : posInFile + (magic ++ le32 block.length ++ block ++ tail).length ≤
      f1.length := by
    simp only [List.length_append, hm, le32_length]
    omega
  obtain ⟨hr1, hr2, hr3⟩ := frame_reads hm (le32_length block.length) hfit'
  have hlen2 : (overlay f1 posInFile
      (magic ++ le32 block.length ++ block ++ tail)).length = f1.length :=
    overlay_length hfit'
  rcases bh? with _ | bh
  · rw [loadBlock, if_neg (by omega : ¬ posInFile + 8 < 4), hfile]
    dsimp only
    rw [if_neg (by rw [hlen2]; omega)]
    rw [show posInFile + 8 - 4 = posInFile + 4 from by omega, hr1, dec32_le32 hbs]
    rw [if_neg (by
      rw [hlen2]
      simp only [Option.isSome_none, Bool.false_eq_true, if_false]
      omega)]
    rw [hr2]
  · obtain ⟨htl, htl32⟩ := htail bh rfl
    rw [loadBlock, if_neg (by omega : ¬ posInFile + 8 < 4), hfile]
    dsimp only
    rw [if_neg (by rw [hlen2]; omega)]
    rw [show posInFile + 8 - 4 = posInFile + 4 from by omega, hr1, dec32_le32 hbs]
    rw [if_neg (by
      rw [hlen2]
      simp only [Option.isSome_some, eq_self_iff_true, if_true]
      omega)]
    rw [hr2, show posInFile + 8 + block.length = posInFile + (8 + block.length) from by
      omega]
    rw [htl32] at hr3
    rw [hr3, htl, if_pos rfl]

/-- The `newFile` flag chosen by the top of `writeBlock`. -/
def wdNew (w : WriterState) (bs pf : Nat) (u : Bool) : Bool :=
  (writeDecision w bs pf u).1

/-- The `nLastBlockFile` value after the top of `writeBlock`. -/
def wdLast (w : WriterState) (bs pf : Nat) (u : Bool) : Nat :=
  (writeDecision w bs pf u).2.1

/-- The `vinfoBlockFile` vector after the top of `writeBlock`. -/
def wdInfos (w : WriterState) (bs pf : Nat) (u : Bool) : List CBlockFileInfo :=
  (writeDecision w bs pf u).2.2

/-- `pos.nFile` as computed by `writeBlock`. -/
def wbPosFile (w : WriterState) (bs pf : Nat) (u : Bool) : Nat :=
  if u then wdLast w bs pf u else pf

/-- The `CBlockFileInfo` entry `writeBlock` works on. -/
def wbInfo (w : WriterState) (bs pf : Nat) (u : Bool) : CBlockFileInfo :=
  (wdInfos w bs pf u).getD (wbPosFile w bs pf u) {}

/-- The allocation chunk used for the data file. -/
def wbChunk (u : Bool) : Nat :=
  if u then BLOCKFILE_CHUNK_SIZE else UNDOFILE_CHUNK_SIZE

/-- The on-disk files after the create-new-file step of `writeBlock`. -/
def wbFiles1 (w : WriterState) (bs pf : Nat) (u : Bool) : List (Option (List Nat)) :=
  writeFiles1 (if u then w.blkFiles else w.revFiles) (wbPosFile w bs pf u) bs
    (wbChunk u) (wdNew w bs pf u || (!u && (wbInfo w bs pf u).nUndoSize == 0))

/-- The offset inside the file at which the frame is written. -/
def wbPosIn (w : WriterState) (bs pf : Nat) (u : Bool) : Nat :=
  if u then (wbInfo w bs pf u).nSize else (wbInfo w bs pf u).nUndoSize

/-- The file contents after the in-write `growFile`. -/
def wbF1 (w : WriterState) (bs pf : Nat) (u : Bool) (f0 : List Nat) : List Nat :=
  growFile (wbPosIn w bs pf u + bs + 8 + (if u then 0 else 32)) (wbChunk u) f0

/-- The checksum suffix of the frame: empty for blocks, `SHA256d(hash‖payload)`
for undo data. -/
def wbTail (hashFn : List Nat → List Nat) (u : Bool) (blockHash block : List Nat) :
    List Nat :=
  if u then [] else hashFn (blockHash ++ block)

/-- The updated `CBlockFileInfo` entry. -/
def wbInfo2 (w : WriterState) (bs pf : Nat) (u : Bool) : CBlockFileInfo :=
  if u then
    { wbInfo w bs pf u with nBlocks := (wbInfo w bs pf u).nBlocks + 1,
                            nSize := wbPosIn w bs pf u + bs + 8 }
  else { wbInfo w bs pf u with nUndoSize := wbPosIn w bs pf u + 32 + bs + 8 }

/-- The file contents after the frame is overlaid. -/
def wbF2 (magic : List Nat) (hashFn : List Nat → List Nat) (w : WriterState)
    (block : List Nat) (pf : Nat) (u : Bool) (blockHash f0 : List Nat) : List Nat :=
  overlay (wbF1 w block.length pf u f0) (wbPosIn w block.length pf u)
    (magic ++ le32 block.length ++ block ++ wbTail hashFn u blockHash block)

/-- The on-disk files after the frame is written back. -/
def wbFiles2 (magic : List Nat) (hashFn : List Nat → List Nat) (w : WriterState)
    (block : List Nat) (pf : Nat) (u : Bool) (blockHash f0 : List Nat) :
    List (Option (List Nat)) :=
  setFileAt (wbFiles1 w block.length pf u) (wbPosFile w block.length pf u)
    (wbF2 magic hashFn w block pf u blockHash f0)

/-- The full result record of a successful `writeBlock`. -/
def wbResult (magic : List Nat) (hashFn : List Nat → List Nat) (w : WriterState)
    (block : List Nat) (pf : Nat) (u : Bool) (blockHash f0 : List Nat) : WriteResult :=
  { state :=
      { vinfoBlockFile :=
          (wdInfos w block.length pf u).set (wbPosFile w block.length pf u)
            (wbInfo2 w block.length pf u),
        nLastBlockFile := wdLast w block.length pf u,
        blkFiles := if u then wbFiles2 magic hashFn w block pf u blockHash f0
          else w.blkFiles,
        revFiles := if u then w.revFiles
          else wbFiles2 magic hashFn w block pf u blockHash f0 },
    posFile := wbPosFile w block.length pf u,
    posPos := wbPosIn w block.length pf u + 8,
    payloadOut := extract (wbF2 magic hashFn w block pf u blockHash f0)
      (wbPosIn w block.length pf u + 8) block.length,
    newFile := wdNew w block.length pf u }

/-- Characterisation of a successful `writeBlock` run: the block is small
enough, the work file exists after the create step, and the result record is
exactly `wbResult`. -/
theorem writeBlock_spec (magic : List Nat) (hashFn : List Nat → List Nat)
    (w : WriterState) (block : List Nat) (posFileIn : Nat) (useBlk : Bool)
    (blockHash : List Nat) (res : WriteResult)
    (hw : writeBlock magic hashFn w block posFileIn useBlk blockHash = some res) :
    block.length + 8 < MAX_BLOCKFILE_SIZE ∧
    ∃ f0, getFileAt (wbFiles1 w block.length posFileIn useBlk)
        (wbPosFile w block.length posFileIn useBlk) = some f0 ∧
      res = wbResult magic hashFn w block posFileIn useBlk blockHash f0 := by
  rw [writeBlock] at hw
  by_cases hsz : block.length + 8 ≥ MAX_BLOCKFILE_SIZE
  · rw [if_pos hsz] at hw
    exact Option.noConfusion hw
  rw [if_neg hsz] at hw
  dsimp only at hw
  refine ⟨by omega, ?_⟩
  split at hw
  · exact Option.noConfusion hw
  · rename_i f0 heq
    rw [Option.some_inj] at hw
    exact ⟨f0, heq, hw.symm⟩

theorem wbTail_length (hashFn : List Nat → List Nat) (u : Bool)
    (blockHash block : List Nat) (hhash : ∀ x, (hashFn x).length = 32) :
    (wbTail hashFn u blockHash block).length = if u then 0 else 32 := by
  cases u <;> simp [wbTail, hhash]

theorem wbF1_fit (w : WriterState) (bs pf : Nat) (u : Bool) (f0 : List Nat) :
    wbPosIn w bs pf u + bs + 8 + (if u then 0 else 32) <
      (wbF1 w bs pf u f0).length :=
  growFile_gt (by cases u <;> decide) f0

theorem ite_ite_same {α : Type} (b : Bool) (x y z : α) :
    (if b then (if b then x else y) else (if b then z else x)) = x := by
  cases b <;> rfl

/-- C3: reading back at the position returned by `writeBlock` yields the
payload byte-for-byte, both for blocks and for undo payloads, whose trailing
checksum `SHA256d(blockHash ‖ payload)` is embedded by the write and verified
by the read; the returned buffer view also equals the payload. -/
theorem C3_writeBlock_loadBlock_roundtrip
    (magic : List Nat) (hashFn : List Nat → List Nat) (w : WriterState)
    (block : List Nat) (posFileIn : Nat) (useBlk : Bool) (blockHash : List Nat)
    (res : WriteResult)
    (hmagic : magic.length = 4) (hhash : ∀ x, (hashFn x).length = 32)
    (hw : writeBlock magic hashFn w block posFileIn useBlk blockHash = some res) :
    loadBlock hashFn res.state res.posFile res.posPos useBlk
      (if useBlk then none else some blockHash) = .ok block ∧
    res.payloadOut = block := by
  obtain ⟨hsz, f0, hget, hres⟩ := writeBlock_spec _ _ _ _ _ _ _ _ hw
  subst hres
  have hg := wbF1_fit w block.length posFileIn useBlk f0
  have ht := wbTail_length hashFn useBlk blockHash block hhash
  have hfit' : wbPosIn w block.length posFileIn useBlk +
      (magic ++ le32 block.length ++ block ++
        wbTail hashFn useBlk blockHash block).length ≤
      (wbF1 w block.length posFileIn useBlk f0).length := by
    simp only [List.length_append, hmagic, le32_length]
    omega
  dsimp only [wbResult]
  constructor
  · refine loadBlock_of_frame hashFn _ useBlk _ _
      (wbF1 w block.length posFileIn useBlk f0) magic block
      (wbTail hashFn useBlk blockHash block) _ hmagic ?_ ?_ ?_ ?_
    · dsimp only
      rw [ite_ite_same, wbFiles2, wbF2]
      exact getFileAt_setFileAt _ _ _
    · omega
    · have hm : MAX_BLOCKFILE_SIZE = 134217728 := rfl
      omega
    · intro bh h
      cases useBlk with
      | false =>
          injection h with h2
          subst h2
          exact ⟨rfl, hhash _⟩
      | true => exact Option.noConfusion h
  · rw [wbF2]
    exact (frame_reads hmagic (le32_length block.length) hfit').2.1

/-- The concrete result of writing `[1,2,3]` into `wSmall`. -/
def wRes3 : WriteResult :=
  { state := ⟨[{ nBlocks := 1, nSize := 11, nUndoSize := 0 }], 0,
              [some [9, 9, 9, 9, 3, 0, 0, 0, 1, 2, 3, 0, 0, 0, 0, 0, 0, 0, 0, 0]], []⟩,
    posFile := 0, posPos := 8, payloadOut := [1, 2, 3], newFile := false }

/-- Witness for C3 at a concrete write. -/
theorem C3_writeBlock_loadBlock_roundtrip_witness :
    loadBlock hashZ wRes3.state wRes3.posFile wRes3.posPos true
      (if true then none else some ([] : List Nat)) = .ok [1, 2, 3] ∧
    wRes3.payloadOut = [1, 2, 3] :=
  C3_writeBlock_loadBlock_roundtrip [9, 9, 9, 9] hashZ wSmall [1, 2, 3] 0 true []
    wRes3 (by decide) (fun x => rfl) (by decide)

/-- A fresh data directory: no block files, no file infos. -/
def freshWriter : WriterState := ⟨[], 0, [], []⟩

theorem getD_set_self {α : Type} (l : List α) (i : Nat) (a d : α)
    (h : i < l.length) : (l.set i a).getD i d = a := by
  rw [List.getD_eq_get?, List.get?_set_eq_of_lt]
  · rfl
  · exact h

/-- On the block path the written file index is inside the updated
`vinfoBlockFile` vector. -/
theorem wdInfos_pos (w : WriterState) (bs pf : Nat) :
    wbPosFile w bs pf true < (wdInfos w bs pf true).length := by
  rw [wbPosFile, if_pos rfl, wdLast, wdInfos, writeDecision]
  by_cases h1 : w.vinfoBlockFile.length ≤ w.nLastBlockFile
  · rw [if_pos h1]
    dsimp only
    rw [resizeList_length]
    omega
  · rw [if_neg h1]
    by_cases h2 : (true : Bool) = true ∧
        (w.vinfoBlockFile.getD w.nLastBlockFile {}).nSize + bs + 8 >
          MAX_BLOCKFILE_SIZE
    · rw [if_pos h2]
      dsimp only
      rw [resizeList_length]
      omega
    · rw [if_neg h2]
      rw [if_neg (fun hc => hc.1 rfl :
        ¬ (¬ (true : Bool) = true ∧ w.nLastBlockFile < pf))]
      dsimp only
      omega

/-- Reading the network magic back at the very start of a written frame. -/
theorem frame_reads_head {f1 : List Nat} {off : Nat} {magic lenb block tail : List Nat}
    (hm : magic.length = 4) (hl : lenb.length = 4)
    (hfit : off + (magic ++ lenb ++ block ++ tail).length ≤ f1.length) :
    extract (overlay f1 off (magic ++ lenb ++ block ++ tail)) off 4 = magic := by
  have h := @extract_overlay f1 (magic ++ lenb ++ block ++ tail) off 0 4
    (by simp only [List.length_append, hm, hl]; omega) hfit
  rw [Nat.add_zero] at h
  rw [h, List.drop_zero]
  rw [show magic ++ lenb ++ block ++ tail = magic ++ (lenb ++ (block ++ tail)) by
    simp [List.append_assoc]]
  rw [List.take_left' hm]

/-- C4: for every successful block write, `pos.nPos` is the byte offset of the
first payload byte: the file holds the 4-byte network magic at `pos - 8`, the
4-byte little-endian payload length at `pos - 4` and the payload at `pos`; the
file's recorded `nSize` advances past the written frame; and the first block
written into a fresh data directory returns position `(0, 8)`. -/
theorem C4_writeBlock_layout
    (magic : List Nat) (hashFn : List Nat → List Nat) (w : WriterState)
    (block : List Nat) (posFileIn : Nat) (blockHash : List Nat) (res : WriteResult)
    (hmagic : magic.length = 4)
    (hw : writeBlock magic hashFn w block posFileIn true blockHash = some res) :
    (∃ f, getFileAt res.state.blkFiles res.posFile = some f ∧
       extract f (res.posPos - 8) 4 = magic ∧
       extract f (res.posPos - 4) 4 = le32 block.length ∧
       extract f res.posPos block.length = block) ∧
    8 ≤ res.posPos ∧
    (res.state.vinfoBlockFile.getD res.posFile {}).nSize = res.posPos + block.length ∧
    (w = freshWriter → res.posFile = 0 ∧ res.posPos = 8) := by
  obtain ⟨hsz, f0, hget, hres⟩ := writeBlock_spec _ _ _ _ _ _ _ _ hw
  subst hres
  have ht : (wbTail hashFn true blockHash block).length = 0 := rfl
  have hg := wbF1_fit w block.length posFileIn true f0
  rw [if_pos rfl] at hg
  have hfit' : wbPosIn w block.length posFileIn true +
      (magic ++ le32 block.length ++ block ++
        wbTail hashFn true blockHash block).length ≤
      (wbF1 w block.length posFileIn true f0).length := by
    simp only [List.length_append, hmagic, le32_length, ht]
    omega
  dsimp only [wbResult]
  refine ⟨⟨wbF2 magic hashFn w block posFileIn true blockHash f0, ?_, ?_, ?_, ?_⟩,
    ?_, ?_, ?_⟩
  · show getFileAt (wbFiles2 magic hashFn w block posFileIn true blockHash f0)
      (wbPosFile w block.length posFileIn true) = _
    rw [wbFiles2]
    exact getFileAt_setFileAt _ _ _
  · rw [Nat.add_sub_cancel, wbF2]
    exact frame_reads_head hmagic (le32_length block.length) hfit'
  · rw [show wbPosIn w block.length posFileIn true + 8 - 4 =
      wbPosIn w block.length posFileIn true + 4 from by omega, wbF2]
    exact (frame_reads hmagic (le32_length block.length) hfit').1
  · rw [wbF2]
    exact (frame_reads hmagic (le32_length block.length) hfit').2.1
  · omega
  · rw [getD_set_self _ _ _ _ (wdInfos_pos w block.length posFileIn)]
    have hs : (wbInfo2 w block.length posFileIn true).nSize =
        wbPosIn w block.length posFileIn true + block.length + 8 := rfl
    omega
  · intro hf
    subst hf
    exact ⟨rfl, rfl⟩

/-- Witness for C4 at a concrete write into `wSmall`. -/
theorem C4_writeBlock_layout_witness :
    (∃ f, getFileAt wRes3.state.blkFiles wRes3.posFile = some f ∧
       extract f (wRes3.posPos - 8) 4 = [9, 9, 9, 9] ∧
       extract f (wRes3.posPos - 4) 4 = le32 [1, 2, 3].length ∧
       extract f wRes3.posPos [1, 2, 3].length = [1, 2, 3]) ∧
    8 ≤ wRes3.posPos ∧
    (wRes3.state.vinfoBlockFile.getD wRes3.posFile {}).nSize =
      wRes3.posPos + [1, 2, 3].length ∧
    (wSmall = freshWriter → wRes3.posFile = 0 ∧ wRes3.posPos = 8) :=
  C4_writeBlock_layout [9, 9, 9, 9] hashZ wSmall [1, 2, 3] 0 [] wRes3
    (by decide) (by decide)

/-- On the block path `writeBlock` starts a new file exactly when the info
vector is exhausted or the current file cannot take `payload + 8` more bytes.
Stated under the reachable vector shapes (empty, or one entry per file). -/
theorem wdNew_true_iff (w : WriterState) (bs pf : Nat)
    (hshape : w.vinfoBlockFile.length = 0 ∨
      w.vinfoBlockFile.length = w.nLastBlockFile + 1) :
    wdNew w bs pf true = true ↔
      w.vinfoBlockFile.length = 0 ∨
      (w.vinfoBlockFile.getD w.nLastBlockFile {}).nSize + bs + 8 >
        MAX_BLOCKFILE_SIZE := by
  rw [wdNew, writeDecision]
  by_cases h1 : w.vinfoBlockFile.length ≤ w.nLastBlockFile
  · rw [if_pos h1]
    dsimp only
    constructor
    · intro _
      rcases hshape with h | h
      · exact Or.inl h
      · omega
    · intro _
      rfl
  · rw [if_neg h1]
    by_cases h2 : (true : Bool) = true ∧
        (w.vinfoBlockFile.getD w.nLastBlockFile {}).nSize + bs + 8 >
          MAX_BLOCKFILE_SIZE
    · rw [if_pos h2]
      dsimp only
      exact ⟨fun _ => Or.inr h2.2, fun _ => rfl⟩
    · rw [if_neg h2]
      rw [if_neg (fun hc => hc.1 rfl :
        ¬ (¬ (true : Bool) = true ∧ w.nLastBlockFile < pf))]
      dsimp only
      constructor
      · intro hfalse
        exact Bool.noConfusion hfalse
      · intro hr
        rcases hr with h | h
        · omega
        · exact absurd ⟨rfl, h⟩ h2

/-- C5: every block write lands in the (possibly just opened) last blk file:
the returned file index is the updated `nLastBlockFile`, and it equals the old
one when no new file was opened; a new blk file is opened exactly when no
files exist yet or the current file's used size plus the payload plus the
8-byte header would exceed `MAX_BLOCKFILE_SIZE`. -/
theorem C5_writeBlock_last_file
    (magic : List Nat) (hashFn : List Nat → List Nat) (w : WriterState)
    (block : List Nat) (posFileIn : Nat) (blockHash : List Nat) (res : WriteResult)
    (hshape : w.vinfoBlockFile.length = 0 ∨
      w.vinfoBlockFile.length = w.nLastBlockFile + 1)
    (hw : writeBlock magic hashFn w block posFileIn true blockHash = some res) :
    res.posFile = res.state.nLastBlockFile ∧
    (res.newFile = false → res.posFile = w.nLastBlockFile) ∧
    (res.newFile = true ↔
      w.vinfoBlockFile.length = 0 ∨
      (w.vinfoBlockFile.getD w.nLastBlockFile {}).nSize + block.length + 8 >
        MAX_BLOCKFILE_SIZE) := by
  obtain ⟨hsz, f0, hget, hres⟩ := writeBlock_spec _ _ _ _ _ _ _ _ hw
  subst hres
  dsimp only [wbResult]
  refine ⟨rfl, ?_, wdNew_true_iff w block.length posFileIn hshape⟩
  intro hnf
  rw [wdNew, writeDecision] at hnf
  rw [wbPosFile, if_pos rfl, wdLast, writeDecision]
  by_cases h1 : w.vinfoBlockFile.length ≤ w.nLastBlockFile
  · rw [if_pos h1] at hnf
    exact Bool.noConfusion hnf
  · rw [if_neg h1] at hnf ⊢
    by_cases h2 : (true : Bool) = true ∧
        (w.vinfoBlockFile.getD w.nLastBlockFile {}).nSize + block.length + 8 >
          MAX_BLOCKFILE_SIZE
    · rw [if_pos h2] at hnf
      exact Bool.noConfusion hnf
    · rw [if_neg h2]
      rw [if_neg (fun hc => hc.1 rfl :
        ¬ (¬ (true : Bool) = true ∧ w.nLastBlockFile < posFileIn))]

/-- Witness for C5 at a concrete write into `wSmall`. -/
theorem C5_writeBlock_last_file_witness :
    wRes3.posFile = wRes3.state.nLastBlockFile ∧
    (wRes3.newFile = false → wRes3.posFile = wSmall.nLastBlockFile) ∧
    (wRes3.newFile = true ↔
      wSmall.vinfoBlockFile.length = 0 ∨
      (wSmall.vinfoBlockFile.getD wSmall.nLastBlockFile {}).nSize +
        [1, 2, 3].length + 8 > MAX_BLOCKFILE_SIZE) :=
  C5_writeBlock_last_file [9, 9, 9, 9] hashZ wSmall [1, 2, 3] 0 [] wRes3
    (Or.inr (by decide)) (by decide)

/-- A writer state with one blk file of 8 zero bytes. -/
def w6 : WriterState := ⟨[], 0, [some (List.replicate 8 0)], []⟩

/-- C6 counterexample: at position 8 in an 8-byte file none of the claimed
failure conditions holds (position ≥ 4, declared length 0 keeps the payload
inside the file, no checksum involved), yet `loadBlock` fails with the
position-outside-file error; and a block read addressed to a missing (pruned)
file is an error, not an empty view. -/
theorem C6_counterexample :
    (¬ (8 : Nat) < 4) ∧
    8 + dec32 (extract (List.replicate 8 0) 4 4) + 0 ≤ (List.replicate 8 0).length ∧
    loadBlock hashZ w6 0 8 true none = .error .posOutsideFile ∧
    loadBlock hashZ freshWriter 0 8 true none = .error .mmapFailed := by decide

/-- C6 (amended): a stored-payload read fails exactly when the position is
below 4, the addressed file is missing (pruned) — an error, not an empty
view —, the position is at or beyond the end of the file, the declared 4-byte
length (plus the 32-byte checksum for undo reads) overruns the file, or the
recomputed undo checksum differs from the stored one; the DB-level
`loadBlockFile` is what maps a missing file to the empty (absent) buffer. -/
theorem C6_loadBlock_error_classification
    (hashFn : List Nat → List Nat) (w : WriterState) (nFile nPos : Nat)
    (useBlk : Bool) (bh : Option (List Nat)) :
    ((∃ e, loadBlock hashFn w nFile nPos useBlk bh = .error e) ↔
      (nPos < 4 ∨
       getFileAt (if useBlk then w.blkFiles else w.revFiles) nFile = none ∨
       ∃ f, getFileAt (if useBlk then w.blkFiles else w.revFiles) nFile = some f ∧
         (nPos ≥ f.length ∨
          nPos + dec32 (extract f (nPos - 4) 4) +
            (if bh.isSome then 32 else 0) > f.length ∨
          ∃ h, bh = some h ∧
            extract f (nPos + dec32 (extract f (nPos - 4) 4)) 32 ≠
              hashFn (h ++ extract f nPos (dec32 (extract f (nPos - 4) 4)))))) ∧
    (getFileAt w.blkFiles nFile = none → loadBlockFile w nFile = none) := by
  constructor
  · by_cases h4 : nPos < 4
    · rw [loadBlock, if_pos h4]
      exact ⟨fun _ => Or.inl h4, fun _ => ⟨.posTooSmall, rfl⟩⟩
    · rw [loadBlock, if_neg h4]
      rcases hf : getFileAt (if useBlk then w.blkFiles else w.revFiles) nFile
        with _ | f
      · dsimp only
        exact ⟨fun _ => Or.inr (Or.inl rfl), fun _ => ⟨.mmapFailed, rfl⟩⟩
      · dsimp only
        by_cases hout : nPos ≥ f.length
        · rw [if_pos hout]
          exact ⟨fun _ => Or.inr (Or.inr ⟨f, rfl, Or.inl hout⟩),
            fun _ => ⟨.posOutsideFile, rfl⟩⟩
        · rw [if_neg hout]
          by_cases hbig : nPos + dec32 (extract f (nPos - 4) 4) +
              (if bh.isSome then 32 else 0) > f.length
          · rw [if_pos hbig]
            exact ⟨fun _ => Or.inr (Or.inr ⟨f, rfl, Or.inr (Or.inl hbig)⟩),
              fun _ => ⟨.blockTooBig, rfl⟩⟩
          · rw [if_neg hbig]
            rcases bh with _ | b
            · dsimp only
              constructor
              · rintro ⟨e, he⟩
                exact Except.noConfusion he
              · rintro (h | h | ⟨f', hf', h | h | ⟨b', hb', _⟩⟩)
                · exact absurd h h4
                · exact Option.noConfusion h
                · rw [← Option.some_inj.mp hf'] at h
                  exact absurd h hout
                · rw [← Option.some_inj.mp hf'] at h
                  exact absurd h hbig
                · exact Option.noConfusion hb'
            · dsimp only
              by_cases hck : extract f (nPos + dec32 (extract f (nPos - 4) 4)) 32 =
                  hashFn (b ++ extract f nPos (dec32 (extract f (nPos - 4) 4)))
              · rw [if_pos hck]
                constructor
                · rintro ⟨e, he⟩
                  exact Except.noConfusion he
                · rintro (h | h | ⟨f', hf', h | h | ⟨b', hb', hne⟩⟩)
                  · exact absurd h h4
                  · exact Option.noConfusion h
                  · rw [← Option.some_inj.mp hf'] at h
                    exact absurd h hout
                  · rw [← Option.some_inj.mp hf'] at h
                    exact absurd h hbig
                  · rw [← Option.some_inj.mp hf'] at hne
                    rw [← Option.some_inj.mp hb'] at hne
                    exact absurd hck hne
              · rw [if_neg hck]
                exact ⟨fun _ => Or.inr (Or.inr ⟨f, rfl,
                    Or.inr (Or.inr ⟨b, rfl, hck⟩)⟩),
                  fun _ => ⟨.checksumMismatch, rfl⟩⟩
  · intro h
    rw [loadBlockFile, h]

/-- Witness for the C6 classification at a concrete state. -/
theorem C6_loadBlock_error_classification_witness :
    (∃ e, loadBlock hashZ w6 0 8 true none = .error e) ∧
    (getFileAt freshWriter.blkFiles 0 = none → loadBlockFile freshWriter 0 = none) :=
  ⟨(C6_loadBlock_error_classification hashZ w6 0 8 true none).1.mpr
      (Or.inr (Or.inr ⟨List.replicate 8 0, by decide, Or.inl (by decide)⟩)),
    (C6_loadBlock_error_classification hashZ freshWriter 0 8 true none).2⟩

/-- `memchr(buf + start, c, win)` over the mapped file: the index of the first
byte equal to `c` in the window (the C call converts its int argument to a
single unsigned char, here the low byte `c` of the magic word). -/
def findByteIn (f : List Nat) (c : Nat) : Nat → Nat → Option Nat
  | _, 0 => none
  | start, win + 1 =>
      if f.getD start 0 = c then some start
      else findByteIn f c (start + 1) win

theorem findByteIn_some {f : List Nat} {c : Nat} :
    ∀ {win start j : Nat}, findByteIn f c start win = some j →
      start ≤ j ∧ f.getD j 0 = c := by
  intro win
  induction win with
  | zero =>
      intro start j h
      rw [findByteIn] at h
      exact Option.noConfusion h
  | succ win ih =>
      intro start j h
      rw [findByteIn] at h
      by_cases hb : f.getD start 0 = c
      · rw [if_pos hb] at h
        have hj := Option.some_inj.mp h
        subst hj
        exact ⟨le_refl _, hb⟩
      · rw [if_neg hb] at h
        obtain ⟨h1, h2⟩ := ih h
        exact ⟨by omega, h2⟩

/-- The scan loop of `LoadExternalBlockFile` over a mapped file: `memchr` for
the low magic byte in a quarter-length window, read the LE32 size after the
match, skip 4 bytes on a too-small size, otherwise submit the offset 8 past
the match and jump over the announced size.  Returns the submitted offsets. -/
def scanLoopFuel (m0 : Nat) (f : List Nat) : Nat → Nat → List Nat
  | 0, _ => []
  | fuel + 1, i =>
      if i < f.length then
        match findByteIn f m0 i ((f.length - i) / 4) with
        | none => []
        | some j =>
            let bs := dec32 (extract f (j + 4) 4)
            if bs < 80 then scanLoopFuel m0 f fuel (j + 4)
            else (j + 8) :: scanLoopFuel m0 f fuel (j + 8 + bs)
      else []

/-- All offsets `addBlock` receives for one file. -/
def scanOffsets (m0 : Nat) (f : List Nat) : List Nat :=
  scanLoopFuel m0 f (f.length + 1) 0

theorem scanLoopFuel_sound (m0 : Nat) (f : List Nat) :
    ∀ (fuel i o : Nat), o ∈ scanLoopFuel m0 f fuel i →
      8 ≤ o ∧ f.getD (o - 8) 0 = m0 ∧ 80 ≤ dec32 (extract f (o - 4) 4) := by
  intro fuel
  induction fuel with
  | zero =>
      intro i o h
      rw [scanLoopFuel] at h
      exact absurd h (List.not_mem_nil o)
  | succ fuel ih =>
      intro i o h
      rw [scanLoopFuel] at h
      by_cases hi : i < f.length
      · rw [if_pos hi] at h
        rcases hfb : findByteIn f m0 i ((f.length - i) / 4) with _ | j
        · rw [hfb] at h
          exact absurd h (List.not_mem_nil o)
        · rw [hfb] at h
          dsimp only at h
          by_cases hbs : dec32 (extract f (j + 4) 4) < 80
          · rw [if_pos hbs] at h
            exact ih _ _ h
          · rw [if_neg hbs] at h
            rcases List.mem_cons.mp h with rfl | h2
            · obtain ⟨hj1, hj2⟩ := findByteIn_some hfb
              refine ⟨by omega, ?_, ?_⟩
              · rw [show j + 8 - 8 = j from by omega]
                exact hj2
              · rw [show j + 8 - 4 = j + 4 from by omega]
                omega
            · exact ih _ _ h2
      · rw [if_neg hi] at h
        exact absurd h (List.not_mem_nil o)

/-- `reimportBlockFiles` in the ScanningFiles state: load file 0, 1, 2, …,
stopping at the first file whose mapping comes back empty.  Returns the list
of file indices handed to `LoadExternalBlockFile` successfully. -/
def reimportFuel (w : WriterState) : Nat → Nat → List Nat
  | 0, _ => []
  | fuel + 1, nFile =>
      match loadBlockFile w nFile with
      | none => []
      | some _ => nFile :: reimportFuel w fuel (nFile + 1)

def reimportFiles (w : WriterState) : List Nat :=
  reimportFuel w (w.blkFiles.length + 1) 0

theorem loadBlockFile_lt (w : WriterState) (n : Nat) :
    loadBlockFile w n ≠ none → n < w.blkFiles.length := by
  intro h
  by_contra hn
  apply h
  rw [loadBlockFile]
  have hg : getFileAt w.blkFiles n = none := by
    rw [getFileAt]
    exact List.getD_eq_default _ _ (by omega)
  rw [hg]

theorem reimportFuel_mem (w : WriterState) :
    ∀ (fuel start n : Nat),
      n ∈ reimportFuel w fuel start ↔
        start ≤ n ∧ n < start + fuel ∧
          ∀ m, start ≤ m → m ≤ n → loadBlockFile w m ≠ none := by
  intro fuel
  induction fuel with
  | zero =>
      intro start n
      rw [reimportFuel]
      constructor
      · intro h
        exact absurd h (List.not_mem_nil n)
      · rintro ⟨h1, h2, _⟩
        omega
  | succ fuel ih =>
      intro start n
      rw [reimportFuel]
      rcases hl : loadBlockFile w start with _ | f
      · dsimp only
        constructor
        · intro h
          exact absurd h (List.not_mem_nil n)
        · rintro ⟨h1, h2, h3⟩
          exact absurd hl (h3 start (le_refl _) h1)
      · dsimp only
        rw [List.mem_cons]
        constructor
        · rintro (rfl | h)
          · refine ⟨le_refl _, by omega, ?_⟩
            intro m hm1 hm2
            have hms : m = n := by omega
            intro hc
            rw [hms, hl] at hc
            exact Option.noConfusion hc
          · obtain ⟨h1, h2, h3⟩ := (ih (start + 1) n).mp h
            refine ⟨by omega, by omega, ?_⟩
            intro m hm1 hm2
            by_cases hms : m = start
            · intro hc
              rw [hms, hl] at hc
              exact Option.noConfusion hc
            · exact h3 m (by omega) hm2
        · rintro ⟨h1, h2, h3⟩
          by_cases hns : n = start
          · exact Or.inl hns
          · refine Or.inr ((ih (start + 1) n).mpr ⟨by omega, by omega, ?_⟩)
            intro m hm1 hm2
            exact h3 m (by omega) hm2

/-- A 108-byte buffer whose only magic-like byte is a lone first-magic-byte at
offset 0, followed by an announced size of 100. -/
def b7 : List Nat := [1, 0, 0, 0, 100, 0, 0, 0] ++ List.replicate 100 0

set_option maxRecDepth 4000 in
/-- C7 counterexample: the full 4-byte magic word `[1,2,3,4]` occurs nowhere
in `b7`, yet the scan loop (which `memchr`s for the single low byte `1` of the
magic) submits offset 8 to the validation engine. -/
theorem C7_counterexample :
    (∀ j ∈ List.range 108, extract b7 j 4 ≠ [1, 2, 3, 4]) ∧
    scanOffsets 1 b7 = [8] := by decide

/-- C7 (amended): the reindex worker processes exactly the files 0, 1, 2, …
up to the first index whose mapping comes back empty; within a file every
offset submitted via `addBlock` lies 8 bytes past a byte equal to the low
byte of the magic word (not a verified 4-byte match) whose following 4-byte
little-endian length is at least 80. -/
theorem C7_reindex_scan (m0 : Nat) (f : List Nat) (w : WriterState) (n : Nat) :
    (∀ o ∈ scanOffsets m0 f,
       8 ≤ o ∧ f.getD (o - 8) 0 = m0 ∧ 80 ≤ dec32 (extract f (o - 4) 4)) ∧
    (n ∈ reimportFiles w ↔ ∀ m, m ≤ n → loadBlockFile w m ≠ none) := by
  constructor
  · intro o ho
    exact scanLoopFuel_sound m0 f (f.length + 1) 0 o ho
  · rw [reimportFiles, reimportFuel_mem]
    constructor
    · rintro ⟨h1, h2, h3⟩
      intro m hm
      exact h3 m (by omega) hm
    · intro h
      have hn : n < w.blkFiles.length := loadBlockFile_lt w n (h n (le_refl n))
      exact ⟨by omega, by omega, fun m _ hm2 => h m hm2⟩

/-- Witness for C7 at the concrete buffer `b7` and state `w6`. -/
theorem C7_reindex_scan_witness :
    (∀ o ∈ scanOffsets 1 b7,
       8 ≤ o ∧ b7.getD (o - 8) 0 = 1 ∧ 80 ≤ dec32 (extract b7 (o - 4) 4)) ∧
    (0 ∈ reimportFiles w6 ↔ ∀ m, m ≤ 0 → loadBlockFile w6 m ≠ none) :=
  C7_reindex_scan 1 b7 w6 0

/-- A record's parent is one of its ancestors. -/
theorem anc_prev {st : Store} (hwf : WF st) {i p : Nat}
    (hp : prevOf st i = some p) : anc st p i := by
  obtain ⟨hplt, hph, -, -⟩ := prev_facts hwf hp
  rw [anc, getAncestor_step hwf hp (by omega)]
  exact getAncestor_self

/-- The `while (pindex != NULL) pindex = pindex->pprev` walk of
`reconsiderBlock`, fuel-indexed: the ids visited. -/
def ancWalkFuel (st : Store) : Nat → Option Nat → List Nat
  | 0, _ => []
  | fuel + 1, o => o.elim [] (fun i => i :: ancWalkFuel st fuel (prevOf st i))

/-- All ids the ancestor walk from `r` visits (`r` itself included). -/
def ancestorsOf (st : Store) (r : Nat) : List Nat :=
  ancWalkFuel st (heightOf st r + 1) (some r)

theorem ancWalk_sound {st : Store} (hwf : WF st) :
    ∀ (fuel i : Nat), i < st.length →
      ∀ j ∈ ancWalkFuel st fuel (some i), anc st j i := by
  intro fuel
  induction fuel with
  | zero =>
      intro i hi j hj
      rw [ancWalkFuel] at hj
      exact absurd hj (List.not_mem_nil j)
  | succ fuel ih =>
      intro i hi j hj
      have hj1 : j ∈ i :: ancWalkFuel st fuel (prevOf st i) := hj
      rcases List.mem_cons.mp hj1 with rfl | hj2
      · exact anc_refl st _
      · rcases hp : prevOf st i with _ | p
        · rw [hp] at hj2
          rcases fuel with _ | fuel2
          · exact absurd hj2 (List.not_mem_nil j)
          · exact absurd hj2 (List.not_mem_nil j)
        · rw [hp] at hj2
          obtain ⟨hplt, hph, -, -⟩ := prev_facts hwf hp
          exact anc_trans hwf hi (ih p hplt j hj2) (anc_prev hwf hp)

theorem ancWalk_complete {st : Store} (hwf : WF st) :
    ∀ (fuel i : Nat), i < st.length → heightOf st i < fuel →
      ∀ j, anc st j i → j ∈ ancWalkFuel st fuel (some i) := by
  intro fuel
  induction fuel with
  | zero =>
      intro i hi hf j hj
      omega
  | succ fuel ih =>
      intro i hi hf j hj
      show j ∈ i :: ancWalkFuel st fuel (prevOf st i)
      by_cases hji : j = i
      · subst hji
        exact List.mem_cons_self _ _
      · obtain ⟨p, hp, hjp⟩ := anc_strict_step hwf hi hj hji
        obtain ⟨hplt, hph, -, -⟩ := prev_facts hwf hp
        rw [hp]
        exact List.mem_cons.mpr (Or.inr (ih p hplt (by omega) j hjp))

/-- The walk from `r` visits exactly the ancestors (and `r` itself). -/
theorem mem_ancestorsOf {st : Store} (hwf : WF st) {r j : Nat}
    (hr : r < st.length) : j ∈ ancestorsOf st r ↔ anc st j r := by
  constructor
  · intro h
    exact ancWalk_sound hwf (heightOf st r + 1) r hr j h
  · intro h
    exact ancWalk_complete hwf (heightOf st r + 1) r hr (by omega) j h

/-- A dangling id can only be its own `GetAncestor` result. -/
theorem getAncestor_dangling {st : Store} {i h j : Nat} (hi : st.length ≤ i)
    (hj : getAncestor st i h = some j) : j = i := by
  have hrec : st.recAt i = none := by
    rw [recAt]
    exact List.get?_eq_none.mpr hi
  have hh0 : heightOf st i = 0 := by
    rw [heightOf, hrec]
    rfl
  rw [getAncestor, hh0, gaFuel] at hj
  by_cases hhi : h = heightOf st i
  · rw [if_pos hhi] at hj
    exact (Option.some_inj.mp hj).symm
  · rw [if_neg hhi] at hj
    exact Option.noConfusion hj

/-- The first-pass condition of `reconsiderBlock`:
`!it->second->IsValid() && it->second->GetAncestor(nHeight) == pindex`.
`isValidFn` abstracts `CBlockIndex::IsValid` (defined in `chain.h`, not among
the sources); the only fact used about it is that a record carrying
`BLOCK_FAILED_MASK` is not valid. -/
def phase1Hit (isValidFn : Nat → Bool) (st : Store) (r i : Nat) : Bool :=
  !isValidFn (statusOf st i) &&
    decide (getAncestor st i (heightOf st r) = some r)

/-- Statuses after the first pass: `nStatus &= ~BLOCK_FAILED_MASK` on every hit
(each map entry is visited once; the pass reads only its own entry's status and
the immutable tree shape, so the pointwise form is the loop's result). -/
def phase1 (isValidFn : Nat → Bool) (st : Store) (r : Nat) : Nat → Nat :=
  fun i =>
    if phase1Hit isValidFn st r i = true then clearFailedMask (statusOf st i)
    else statusOf st i

/-- Clear the failed mask of record `i` in the status assignment. -/
def updStatus (σ : Nat → Nat) (i : Nat) : Nat → Nat :=
  fun j => if j = i then clearFailedMask (σ i) else σ j

theorem updStatus_self (σ : Nat → Nat) (i : Nat) :
    updStatus σ i i = clearFailedMask (σ i) := if_pos rfl

theorem updStatus_other (σ : Nat → Nat) (i j : Nat) (h : j ≠ i) :
    updStatus σ i j = σ j := if_neg h

/-- The ancestor pass of `reconsiderBlock`: walk the list, clearing the failed
mask wherever it is set. -/
def phase2 : List Nat → (Nat → Nat) → (Nat → Nat)
  | [], σ => σ
  | i :: rest, σ =>
      phase2 rest (if hasFailedMask (σ i) = true then updStatus σ i else σ)

/-- The ids `MarkIndexUnsaved` is called on during the ancestor pass. -/
def phase2Dirty : List Nat → (Nat → Nat) → List Nat
  | [], _ => []
  | i :: rest, σ =>
      if hasFailedMask (σ i) = true then i :: phase2Dirty rest (updStatus σ i)
      else phase2Dirty rest σ

/-- The statuses after `Blocks::Index::reconsiderBlock(r)`. -/
def reconsiderStatuses (isValidFn : Nat → Bool) (st : Store) (r : Nat) :
    Nat → Nat :=
  phase2 (ancestorsOf st r) (phase1 isValidFn st r)

/-- All ids `MarkIndexUnsaved` is called on during `reconsiderBlock(r)`. -/
def reconsiderDirty (isValidFn : Nat → Bool) (st : Store) (r : Nat) : List Nat :=
  (List.range st.length).filter (fun i => phase1Hit isValidFn st r i) ++
  phase2Dirty (ancestorsOf st r) (phase1 isValidFn st r)

theorem phase2_char : ∀ (l : List Nat) (σ : Nat → Nat) (j : Nat),
    phase2 l σ j =
      if j ∈ l ∧ hasFailedMask (σ j) = true then clearFailedMask (σ j)
      else σ j := by
  intro l
  induction l with
  | nil =>
      intro σ j
      rw [phase2, if_neg (fun hc => List.not_mem_nil j hc.1)]
  | cons i rest ih =>
      intro σ j
      rw [phase2]
      by_cases hm : hasFailedMask (σ i) = true
      · rw [if_pos hm, ih]
        by_cases hji : j = i
        · subst hji
          rw [updStatus_self, hasFailedMask_clearFailedMask]
          rw [if_neg (fun hc => Bool.false_ne_true hc.2)]
          rw [if_pos ⟨List.mem_cons_self _ _, hm⟩]
        · rw [updStatus_other _ _ _ hji]
          have hmem : (j ∈ i :: rest) = (j ∈ rest) := by
            simp [List.mem_cons, hji]
          simp only [hmem]
      · rw [if_neg hm, ih]
        by_cases hji : j = i
        · subst hji
          rw [if_neg (fun hc => hm hc.2), if_neg (fun hc => hm hc.2)]
        · have hmem : (j ∈ i :: rest) = (j ∈ rest) := by
            simp [List.mem_cons, hji]
          simp only [hmem]

theorem phase2Dirty_mem : ∀ (l : List Nat) (σ : Nat → Nat) (j : Nat),
    j ∈ phase2Dirty l σ ↔ j ∈ l ∧ hasFailedMask (σ j) = true := by
  intro l
  induction l with
  | nil =>
      intro σ j
      rw [phase2Dirty]
      constructor
      · intro h
        exact absurd h (List.not_mem_nil j)
      · rintro ⟨h, _⟩
        exact absurd h (List.not_mem_nil j)
  | cons i rest ih =>
      intro σ j
      rw [phase2Dirty]
      by_cases hm : hasFailedMask (σ i) = true
      · rw [if_pos hm, List.mem_cons, ih, List.mem_cons]
        by_cases hji : j = i
        · subst hji
          constructor
          · intro _
            exact ⟨Or.inl rfl, hm⟩
          · intro _
            exact Or.inl rfl
        · rw [updStatus_other _ _ _ hji]
          constructor
          · rintro (h | ⟨h1, h2⟩)
            · exact absurd h hji
            · exact ⟨Or.inr h1, h2⟩
          · rintro ⟨h | h1, h2⟩
            · exact absurd h hji
            · exact Or.inr ⟨h1, h2⟩
      · rw [if_neg hm, ih, List.mem_cons]
        constructor
        · rintro ⟨h1, h2⟩
          exact ⟨Or.inr h1, h2⟩
        · rintro ⟨h | h1, h2⟩
          · subst h
            exact absurd h2 hm
          · exact ⟨h1, h2⟩

/-- C8: `reconsiderBlock(r)` clears `FAILED_MASK` on exactly the records whose
ancestor at `r`'s height is `r` and on the ancestors of `r`, modifies the
status of no other record, and marks every record whose status changed dirty.
`isValidFn` abstracts `CBlockIndex::IsValid`; the hypothesis states the one
fact the code relies on: a record carrying the failed mask is not valid. -/
theorem C8_reconsider_clears_exactly
    (isValidFn : Nat → Bool) (st : Store) (r i : Nat)
    (hwf : WF st) (hr : r < st.length)
    (hval : ∀ s, hasFailedMask s = true → isValidFn s = false) :
    reconsiderStatuses isValidFn st r i =
      (if getAncestor st i (heightOf st r) = some r ∨ anc st i r
       then clearFailedMask (statusOf st i) else statusOf st i) ∧
    (reconsiderStatuses isValidFn st r i ≠ statusOf st i →
      i ∈ reconsiderDirty isValidFn st r) := by
  have hφeq : phase1 isValidFn st r i =
      if phase1Hit isValidFn st r i = true then clearFailedMask (statusOf st i)
      else statusOf st i := rfl
  have hmain : reconsiderStatuses isValidFn st r i =
      if getAncestor st i (heightOf st r) = some r ∨ anc st i r
      then clearFailedMask (statusOf st i) else statusOf st i := by
    rw [reconsiderStatuses, phase2_char, hφeq]
    by_cases hHit : phase1Hit isValidFn st r i = true
    · rw [if_pos hHit]
      have hA : getAncestor st i (heightOf st r) = some r := by
        rw [phase1Hit, Bool.and_eq_true, decide_eq_true_eq] at hHit
        exact hHit.2
      rw [hasFailedMask_clearFailedMask]
      rw [if_neg (fun hc => Bool.false_ne_true hc.2)]
      rw [if_pos (Or.inl hA)]
    · rw [if_neg hHit]
      by_cases hanc : anc st i r
      · have hmem : i ∈ ancestorsOf st r := (mem_ancestorsOf hwf hr).mpr hanc
        by_cases hM : hasFailedMask (statusOf st i) = true
        · rw [if_pos ⟨hmem, hM⟩, if_pos (Or.inr hanc)]
        · have hM' : hasFailedMask (statusOf st i) = false :=
            Bool.eq_false_iff.mpr hM
          rw [hM']
          rw [if_neg (fun hc => Bool.false_ne_true hc.2)]
          rw [if_pos (Or.inr hanc), clearFailedMask_of_not_hasFailedMask hM']
      · have hnmem : i ∉ ancestorsOf st r :=
          fun hm => hanc ((mem_ancestorsOf hwf hr).mp hm)
        rw [if_neg (fun hc => hnmem hc.1)]
        by_cases hA : getAncestor st i (heightOf st r) = some r
        · have hV : isValidFn (statusOf st i) = true := by
            by_contra hV'
            apply hHit
            rw [phase1Hit, Bool.and_eq_true, decide_eq_true_eq]
            refine ⟨?_, hA⟩
            rw [Bool.eq_false_iff.mpr hV']
            rfl
          have hM' : hasFailedMask (statusOf st i) = false := by
            cases hMM : hasFailedMask (statusOf st i)
            · rfl
            · rw [hval _ hMM] at hV
              exact Bool.noConfusion hV
          rw [if_pos (Or.inl hA), clearFailedMask_of_not_hasFailedMask hM']
        · rw [if_neg (fun hor => hor.elim hA hanc)]
  refine ⟨hmain, ?_⟩
  intro hne
  rw [hmain] at hne
  by_cases hor : getAncestor st i (heightOf st r) = some r ∨ anc st i r
  · rw [if_pos hor] at hne
    have hM : hasFailedMask (statusOf st i) = true := by
      cases hMM : hasFailedMask (statusOf st i)
      · exact absurd (clearFailedMask_of_not_hasFailedMask hMM) hne
      · rfl
    rw [reconsiderDirty]
    by_cases hHit : phase1Hit isValidFn st r i = true
    · refine List.mem_append.mpr (Or.inl ?_)
      rw [List.mem_filter]
      refine ⟨?_, hHit⟩
      have hA : getAncestor st i (heightOf st r) = some r := by
        rw [phase1Hit, Bool.and_eq_true, decide_eq_true_eq] at hHit
        exact hHit.2
      rw [List.mem_range]
      by_contra hge
      have := getAncestor_dangling (by omega) hA
      omega
    · have hanc : anc st i r := by
        rcases hor with hA | hanc
        · exfalso
          have hV : isValidFn (statusOf st i) = true := by
            by_contra hV'
            apply hHit
            rw [phase1Hit, Bool.and_eq_true, decide_eq_true_eq]
            refine ⟨?_, hA⟩
            rw [Bool.eq_false_iff.mpr hV']
            rfl
          rw [hval _ hM] at hV
          exact Bool.noConfusion hV
        · exact hanc
      refine List.mem_append.mpr (Or.inr ?_)
      rw [phase2Dirty_mem]
      have hφv : phase1 isValidFn st r i = statusOf st i := by
        rw [hφeq, if_neg hHit]
      refine ⟨(mem_ancestorsOf hwf hr).mpr hanc, ?_⟩
      rw [hφv]
      exact hM
  · rw [if_neg hor] at hne
    exact absurd rfl hne

/-- A store with a failed chain: genesis, a `FAILED_VALID` child, a
`FAILED_CHILD` grandchild. -/
def stC8 : Store :=
  [⟨none, 0, 0, 1⟩, ⟨some 0, 1, 32, 2⟩, ⟨some 1, 2, 64, 3⟩]

/-- Witness for C8 at the concrete store `stC8`, reconsidering record 1. -/
theorem C8_reconsider_clears_exactly_witness :
    (reconsiderStatuses (fun _ => false) stC8 1 2 =
      if getAncestor stC8 2 (heightOf stC8 1) = some 1 ∨ anc stC8 2 1
      then clearFailedMask (statusOf stC8 2) else statusOf stC8 2) ∧
    (reconsiderStatuses (fun _ => false) stC8 1 2 ≠ statusOf stC8 2 →
      2 ∈ reconsiderDirty (fun _ => false) stC8 1) :=
  C8_reconsider_clears_exactly (fun _ => false) stC8 1 2 (by decide) (by decide)
    (fun s _ => rfl)

/-- The FileMapper slot vectors of `Blocks::DBPrivate` (`datafiles`,
`revertDatafiles`); a slot is `none` until a `DataFile` is attached. -/
structure FileMapper where
  datafiles : List (Option Unit)
  revertDatafiles : List (Option Unit)
deriving DecidableEq, Repr

/-- `maxFile` as accumulated by the `CacheAllBlockInfos` row loop:
`maxFile = std::max(pindexNew->nFile, maxFile)` starting from 0. -/
def cacheMaxFile (rows : List Nat) : Nat := rows.foldl max 0

/-- The slot-vector effect of `CacheAllBlockInfos`:
`datafiles.resize(maxFile); revertDatafiles.resize(maxFile)`. -/
def cacheAllBlockInfos (fm : FileMapper) (rows : List Nat) : FileMapper :=
  { datafiles := resizeList fm.datafiles (cacheMaxFile rows) none,
    revertDatafiles := resizeList fm.revertDatafiles (cacheMaxFile rows) none }

/-- The slot-vector effect of `mapFile(fileIndex, …)`:
`if (list.size() <= fileIndex) list.resize(fileIndex + 10)`. -/
def mapFileSlots (slots : List (Option Unit)) (fileIndex : Nat) :
    List (Option Unit) :=
  if slots.length ≤ fileIndex then resizeList slots (fileIndex + 10) none
  else slots

/-- C9: after `CacheAllBlockInfos` over rows whose largest referenced file
index is `maxFile`, both slot vectors have length `maxFile` — not
`maxFile + 1` — so the very next `mapFile` access to index `maxFile` has to
resize again, growing the vector to `maxFile + 10`. -/
theorem C9_cacheAllBlockInfos_resize (fm : FileMapper) (rows : List Nat) :
    (cacheAllBlockInfos fm rows).datafiles.length = cacheMaxFile rows ∧
    (cacheAllBlockInfos fm rows).revertDatafiles.length = cacheMaxFile rows ∧
    (mapFileSlots (cacheAllBlockInfos fm rows).datafiles
        (cacheMaxFile rows)).length = cacheMaxFile rows + 10 := by
  refine ⟨resizeList_length _ _ _, resizeList_length _ _ _, ?_⟩
  rw [mapFileSlots, if_pos (by
    dsimp only [cacheAllBlockInfos]
    rw [resizeList_length] :
    (cacheAllBlockInfos fm rows).datafiles.length ≤ cacheMaxFile rows)]
  exact resizeList_length _ _ _

/-- Witness for C9 at concrete rows `[0, 2, 1]` (so `maxFile = 2`). -/
theorem C9_cacheAllBlockInfos_resize_witness :
    (cacheAllBlockInfos ⟨[], []⟩ [0, 2, 1]).datafiles.length =
      cacheMaxFile [0, 2, 1] ∧
    (cacheAllBlockInfos ⟨[], []⟩ [0, 2, 1]).revertDatafiles.length =
      cacheMaxFile [0, 2, 1] ∧
    (mapFileSlots (cacheAllBlockInfos ⟨[], []⟩ [0, 2, 1]).datafiles
        (cacheMaxFile [0, 2, 1])).length = cacheMaxFile [0, 2, 1] + 10 :=
  C9_cacheAllBlockInfos_resize ⟨[], []⟩ [0, 2, 1]

/-- `std::map::find` over the header index, as an association list
(`hash ↦ record id`). -/
def imFind (m : List (Nat × Nat)) (h : Nat) : Option Nat :=
  match m with
  | [] => none
  | (k, v) :: rest => if k = h then some v else imFind rest h

/-- `Blocks::Index::insert`: `indexMap.insert(std::make_pair(hash, index))`
with `std::map` semantics — insert only if the key is absent — returning the
new map together with the entry the returned iterator denotes (whose `first`
field the C++ function returns a pointer to). -/
def imInsert (m : List (Nat × Nat)) (h v : Nat) :
    List (Nat × Nat) × (Nat × Nat) :=
  match imFind m h with
  | some v0 => (m, (h, v0))
  | none => (m ++ [(h, v)], (h, v))

/-- C10: inserting a second record under a hash already present leaves the
index unchanged: `get` still returns the first-inserted record, `size()` does
not grow, and the returned iterator denotes the original entry (first-wins). -/
theorem C10_insert_first_wins (m : List (Nat × Nat)) (h v1 v2 : Nat)
    (hfound : imFind m h = some v1) :
    (imInsert m h v2).1 = m ∧
    imFind (imInsert m h v2).1 h = some v1 ∧
    (imInsert m h v2).1.length = m.length ∧
    (imInsert m h v2).2 = (h, v1) := by
  rw [imInsert, hfound]
  exact ⟨rfl, hfound, rfl, rfl⟩

/-- Witness for C10 at a concrete one-entry index. -/
theorem C10_insert_first_wins_witness :
    (imInsert [(5, 11)] 5 99).1 = [(5, 11)] ∧
    imFind (imInsert [(5, 11)] 5 99).1 5 = some 11 ∧
    (imInsert [(5, 11)] 5 99).1.length = [(5, 11)].length ∧
    (imInsert [(5, 11)] 5 99).2 = (5, 11) :=
  C10_insert_first_wins [(5, 11)] 5 11 99 (by decide)

end BlocksDB
